import Mathlib

/-!
Verification of the dependency-graph engine and module resolver of the
`lua_dec` repository (`src/dependency_graph.py`, `src/lua_module_resolver.py`).

The Python classes are shallowly embedded:

* Python `dict`s are association lists (`List (String × α)`) in insertion
  order; `dict` assignment replaces the value of an existing key in place and
  appends otherwise.  All reachable dictionary states have no duplicate keys,
  so replacing every matching entry coincides with replacing the single one.
* Python `set`s are lists without duplicates, in some insertion order;
  `set.add` is modelled as append-if-absent.  Set iteration order in Python is
  unspecified, so any theorem proved below about a concrete adjacency order
  describes one realizable execution of the code.
* `Path(p).resolve()` canonicalization is the identity on the already
  canonical path strings used here; paths are plain strings.
* Recursive Python functions are modelled with an explicit fuel argument whose
  initial value strictly dominates the recursion depth / iteration count of
  the source (each iteration consumes at least one unit), so the fuel never
  runs out on the states the source can reach.
* File-system access (`Path.exists`) is a membership test in an explicit list
  of existing paths; file reading is out of scope, extraction functions take
  the file content as input.
-/

namespace LuaDec

/-- Association-list lookup with propositional key comparison; models Python
`dict.get` / `in` on string-keyed dictionaries. -/
def alookup {α : Type} : List (String × α) → String → Option α
  | [], _ => none
  | e :: rest, k => if e.1 = k then some e.2 else alookup rest k

/-- Association-list update: replace the value of key `k` in place, append
`(k, v)` if absent.  Models Python `d[k] = v`. -/
def asetKV {α : Type} : List (String × α) → String → α → List (String × α)
  | [], k, v => [(k, v)]
  | e :: rest, k, v => if e.1 = k then (k, v) :: rest else e :: asetKV rest k v

/-- Remove all entries with key `k`; models Python `dict.pop(k, default)`
(a dict holds at most one entry per key, so removing all matches removes the
one entry). -/
def aerase {α : Type} : List (String × α) → String → List (String × α)
  | [], _ => []
  | e :: rest, k => if e.1 = k then aerase rest k else e :: aerase rest k

/-- The keys of an association list, in insertion order (Python dict
iteration order). -/
def keysOf {α : Type} (m : List (String × α)) : List String :=
  m.map Prod.fst

/-- An adjacency structure: string node mapped to a set (list) of string
nodes. -/
abbrev AdjMap := List (String × List String)

/-- Look up the node set stored under `k`, defaulting to the empty set;
models `d.get(k, set())`. -/
def lookupSet (m : AdjMap) (k : String) : List String :=
  (alookup m k).getD []

/-- `if k not in d: d[k] = set()` on a dictionary of sets. -/
def ensureKey (m : AdjMap) (k : String) : AdjMap :=
  match alookup m k with
  | some _ => m
  | none => m ++ [(k, [])]

/-- `d[k].add(x)` on a `defaultdict(set)`: create the entry if needed and add
`x` to the stored set (append-if-absent). -/
def addToSet (m : AdjMap) (k x : String) : AdjMap :=
  let s := lookupSet m k
  asetKV m k (if x ∈ s then s else s ++ [x])

/-- State of `DependencyGraph` (`src/dependency_graph.py`, `__init__`):
forward adjacency `graph` (dependency → consumers), reverse adjacency
`reverse_graph` (consumer → dependencies), the two module/path maps, the
content cache and the pending-dependency map. -/
structure DepGraph where
  graph : AdjMap
  reverse_graph : AdjMap
  file_to_module : List (String × String)
  module_to_file : List (String × String)
  file_contents : List (String × String)
  pending_module_dependents : AdjMap
deriving Repr

/-- The freshly constructed graph (`DependencyGraph.__init__`). -/
def emptyGraph : DepGraph :=
  { graph := [], reverse_graph := [], file_to_module := [], module_to_file := []
    file_contents := [], pending_module_dependents := [] }

/-- `DependencyGraph.add_file(file_path, module_name, content=None)`.
Records the module maps, caches truthy content, ensures adjacency entries
exist, then pops the pending set of `module_name` and inserts edge
`file_path → consumer` in both adjacency maps for each pending consumer. -/
def add_file (st : DepGraph) (file_path module_name : String)
    (content : Option String) : DepGraph :=
  let ftm := asetKV st.file_to_module file_path module_name
  let mtf := asetKV st.module_to_file module_name file_path
  let fc :=
    match content with
    | some c => if c = "" then st.file_contents else asetKV st.file_contents file_path c
    | none => st.file_contents
  let g1 := ensureKey st.graph file_path
  let rg1 := ensureKey st.reverse_graph file_path
  let pendingList := lookupSet st.pending_module_dependents module_name
  let gr := pendingList.foldl
    (fun (pr : AdjMap × AdjMap) consumer =>
      (addToSet pr.1 file_path consumer, addToSet pr.2 consumer file_path))
    (g1, rg1)
  { graph := gr.1, reverse_graph := gr.2, file_to_module := ftm,
    module_to_file := mtf, file_contents := fc,
    pending_module_dependents := aerase st.pending_module_dependents module_name }

/-- `DependencyGraph.add_dependency(from_file, to_module)`.  If the module is
already resolved, inserts edge `to_file → from_file` in both maps; otherwise
records `from_file` in the pending set of `to_module`. -/
def add_dependency (st : DepGraph) (from_file to_module : String) : DepGraph :=
  let g1 := ensureKey st.graph from_file
  match alookup st.module_to_file to_module with
  | some to_file =>
    let g2 := ensureKey g1 to_file
    let rg1 := ensureKey st.reverse_graph from_file
    { st with
      graph := addToSet g2 to_file from_file,
      reverse_graph := addToSet rg1 from_file to_file }
  | none =>
    { st with
      graph := g1,
      pending_module_dependents :=
        addToSet st.pending_module_dependents to_module from_file }

/-- `DependencyGraph.get_dependencies`: reverse-map lookup with `dict.get`
(no entry is created). -/
def get_dependencies (st : DepGraph) (file_path : String) : List String :=
  lookupSet st.reverse_graph file_path

/-- `DependencyGraph.get_dependents`: forward-map lookup with `dict.get`. -/
def get_dependents (st : DepGraph) (file_path : String) : List String :=
  lookupSet st.graph file_path

/-- Sum of the sizes of all stored adjacency sets. -/
def totalAdjLen (g : AdjMap) : Nat :=
  (g.map (fun e => e.2.length)).sum

/-- The inner `dfs` of `DependencyGraph.get_all_dependencies`: state is
`(visited, dependencies)`; an unvisited node is marked visited and each of its
reverse-map neighbours is added to `dependencies` and explored in turn (the
fold is the `for dep in reverse_graph.get(node, set())` loop: add `dep`, then
recurse).  The fuel bounds the recursion depth, which the source bounds by
the number of distinct visited nodes. -/
def gadDfs (rg : AdjMap) : Nat → String → List String × List String →
    List String × List String
  | 0, _, st => st
  | fuel + 1, node, st =>
    if node ∈ st.1 then st
    else
      (lookupSet rg node).foldl
        (fun acc dep =>
          gadDfs rg fuel dep (acc.1, if dep ∈ acc.2 then acc.2 else acc.2 ++ [dep]))
        (st.1 ++ [node], st.2)

/-- Fuel that dominates the closure DFS depth: every recursion level marks a
new node visited, and visited nodes are the start node plus reverse-map
targets. -/
def gadFuel (rg : AdjMap) : Nat := rg.length + totalAdjLen rg + 2

/-- `DependencyGraph.get_all_dependencies(file_path)`: transitive dependency
closure over the reverse map. -/
def get_all_dependencies (st : DepGraph) (file_path : String) : List String :=
  (gadDfs st.reverse_graph (gadFuel st.reverse_graph) file_path ([], [])).2

/-- The initial in-degree table of `DependencyGraph.topological_sort`: the
number of stored adjacency entries whose set contains `n` (each entry's set
contributes at most once, as Python sets hold no duplicates). -/
def initInDegree (g : AdjMap) (n : String) : Int :=
  (g.countP (fun e => decide (n ∈ e.2)) : Int)

/-- The `for dep in graph.get(node, set())` loop body of Kahn's algorithm:
decrement the in-degree of each dependent and enqueue it when it reaches 0. -/
def processDeps : List String → (String → Int) → List String →
    (String → Int) × List String
  | [], deg, q => (deg, q)
  | d :: ds, deg, q =>
    let deg2 := fun n => if n = d then deg n - 1 else deg n
    processDeps ds deg2 (if deg2 d = 0 then q ++ [d] else q)

/-- The `while queue` loop of `DependencyGraph.topological_sort`: pop the
front node, emit it, and relax its outgoing edges.  Fuel dominates the number
of iterations (each node is enqueued at most once). -/
def kahnLoop (g : AdjMap) : Nat → (String → Int) → List String → List String →
    List String
  | 0, _, _, res => res
  | fuel + 1, deg, queue, res =>
    match queue with
    | [] => res
    | node :: rest =>
      let p := processDeps (lookupSet g node) deg rest
      kahnLoop g fuel p.1 p.2 (res ++ [node])

/-- Fuel bound for `kahnLoop`: initial queue members plus every possible
later enqueue. -/
def sortFuel (g : AdjMap) : Nat := g.length + totalAdjLen g + 1

/-- `DependencyGraph.topological_sort()`: Kahn's algorithm over the forward
map; on a cycle the unemitted remainder is only logged, the emitted prefix is
returned. -/
def topological_sort (g : AdjMap) : List String :=
  kahnLoop g (sortFuel g) (initInDegree g)
    ((keysOf g).filter (fun n => decide (initInDegree g n = 0))) []

/-- The inner `dfs` of `DependencyGraph.detect_cycles`.  `path` is the list of
ancestors on the current DFS call stack (the Python `path` parameter; the
mutable `rec_stack` always equals the set of its elements).  State is
`(cycles, visited)`; the fold is the `for dep in graph.get(node, set())`
loop. -/
def dfsDetect (g : AdjMap) : Nat → List String → String →
    List (List String) × List String → List (List String) × List String
  | 0, _, _, st => st
  | fuel + 1, path, node, st =>
    if node ∈ path then
      (st.1 ++ [path.dropWhile (fun x => x != node) ++ [node]], st.2)
    else if node ∈ st.2 then st
    else
      (lookupSet g node).foldl
        (fun st2 c => dfsDetect g fuel (path ++ [node]) c st2)
        (st.1, st.2 ++ [node])

/-- Fuel dominating the cycle-detection DFS depth (each level appends a fresh
node to the nodup `path`). -/
def detectFuel (g : AdjMap) : Nat := g.length + totalAdjLen g + 2

/-- `DependencyGraph.detect_cycles()`: run the DFS from every not-yet-visited
key in insertion order; a node found on the current stack reports the walk
`path[path.index(node):] + [node]` as a cycle. -/
def detect_cycles (g : AdjMap) : List (List String) :=
  (g.foldl
    (fun st e => if e.1 ∈ st.2 then st else dfsDetect g (detectFuel g) [] e.1 st)
    ([], [])).1

/-- `DependencyGraph.get_restoration_order(start_file)`: return `[start]` for
an unknown start node; otherwise build the subgraph keyed by the dependency
closure plus the start node, each key keeping its full forward adjacency set
(`self.graph.get(dep, set())`, unfiltered), and topologically sort it. -/
def get_restoration_order (st : DepGraph) (start_file : String) : List String :=
  match alookup st.graph start_file with
  | none => [start_file]
  | some _ =>
    let allDeps := get_all_dependencies st start_file
    let sub0 := allDeps.foldl (fun m d => asetKV m d (lookupSet st.graph d)) []
    let subgraph := asetKV sub0 start_file (lookupSet st.graph start_file)
    topological_sort subgraph

/-- A mutating call of the `DependencyGraph` API. -/
inductive Call where
  | addFile (p m : String) (c : Option String)
  | addDep (f m : String)
deriving DecidableEq, Repr

/-- Apply one API call to a graph state. -/
def step (st : DepGraph) : Call → DepGraph
  | .addFile p m c => add_file st p m c
  | .addDep f m => add_dependency st f m

/-- Run a sequence of API calls on the fresh graph. -/
def run (cs : List Call) : DepGraph :=
  cs.foldl step emptyGraph

/-- The file-path arguments of a call (the paths the caller passes; paths can
also enter the graph indirectly, as resolved module targets of earlier
`addFile` calls). -/
def callPaths : Call → List String
  | .addFile p _ _ => [p]
  | .addDep f _ => [f]

/-- `ext.lstrip('.')`: strip leading dots. -/
def stripDots (s : String) : String :=
  (s.toList.dropWhile (fun c => c == '.')).asString

/-- Helper for `splitOnDot`: `acc` holds the current segment reversed. -/
def splitOnDotAux : List Char → List Char → List String
  | [], acc => [acc.reverse.asString]
  | c :: rest, acc =>
    if c = '.' then acc.reverse.asString :: splitOnDotAux rest []
    else splitOnDotAux rest (c :: acc)

/-- Python `module_name.split('.')`: split into dot-separated segments
(empty segments preserved, `""` splits to `[""]`). -/
def splitOnDot (s : String) : List String :=
  splitOnDotAux s.toList []

/-- The extension priority list of `LuaModuleResolver.resolve_module_to_path`. -/
def extList : List String := [".lua.unluac", ".lua", ".so", ".dll", ".dylib"]

/-- `'/'.join(path_parts)`. -/
def joinParts (parts : List String) : String := String.intercalate "/" parts

/-- Candidate shape 1 of `resolve_module_to_path`:
`base_path_obj / '/'.join(path_parts) / ext.lstrip('.')` — the stripped
extension is joined as an extra path component. -/
def cand1 (base : String) (parts : List String) (ext : String) : String :=
  base ++ "/" ++ joinParts parts ++ "/" ++ stripDots ext

/-- Candidate shape 2 of `resolve_module_to_path`:
`os.path.join(base, *path_parts) + ext`. -/
def cand2 (base : String) (parts : List String) (ext : String) : String :=
  base ++ "/" ++ joinParts parts ++ ext

/-- The `for ext in extensions` loop: try candidate shape 1, then shape 2,
for each extension in priority order.  `fs` is the set of existing files. -/
def tryExtensions (fs : List String) (parts : List String) (base : String) :
    List String → Option String
  | [] => none
  | ext :: rest =>
    if fs.contains (cand1 base parts ext) then some (cand1 base parts ext)
    else if fs.contains (cand2 base parts ext) then some (cand2 base parts ext)
    else tryExtensions fs parts base rest

/-- The `for base_path in self.base_paths` outer loop. -/
def tryBases (fs : List String) (parts : List String) : List String → Option String
  | [] => none
  | b :: bs =>
    match tryExtensions fs parts b extList with
    | some p => some p
    | none => tryBases fs parts bs

/-- `LuaModuleResolver.resolve_module_to_path(module_name)` over an explicit
file system `fs` and base-path list. -/
def resolve_module_to_path (fs basePaths : List String) (moduleName : String) :
    Option String :=
  tryBases fs (splitOnDot moduleName) basePaths

/-- The resolution procedure claim C4 describes: the first existing candidate
where candidates are exactly `base ++ "/" ++ segments ++ ext` (shape 2 only),
bases outermost, extensions innermost.  Stated from the claim's words, for
comparison against `resolve_module_to_path`. -/
def resolveClaimC4 (fs basePaths : List String) (moduleName : String) :
    Option String :=
  (basePaths.flatMap (fun b =>
    extList.map (fun e => cand2 b (splitOnDot moduleName) e))).find?
    (fun c => fs.contains c)

/-- The full candidate list the code actually probes, in probe order. -/
def codeCandidates (basePaths : List String) (parts : List String) : List String :=
  basePaths.flatMap (fun b =>
    extList.flatMap (fun e => [cand1 b parts e, cand2 b parts e]))

/-- `\s` of Python `re`. -/
def isSpace (c : Char) : Bool :=
  c == ' ' || c == '\t' || c == '\n' || c == '\x0d' || c == '\x0c' || c == '\x0b'

/-- A single or double quote (the regex class `["\']`). -/
def isQuote (c : Char) : Bool :=
  c == Char.ofNat 34 || c == Char.ofNat 39

/-- Expect the literal character sequence `p` as a prefix, returning the
remainder. -/
def stripPrefixChars : List Char → List Char → Option (List Char)
  | [], l => some l
  | _ :: _, [] => none
  | p :: ps, c :: cs => if c == p then stripPrefixChars ps cs else none

/-- Drop regex `\s*`. -/
def dropSpaces (l : List Char) : List Char := l.dropWhile isSpace

/-- Try the pattern `require\s*\(\s*["\']([^"\']+)["\']\s*\)` at the head of
`l`; on success return the capture group and the remainder after the match.
The pattern is deterministic: each greedy sub-match is over a character class
disjoint from what follows it. -/
def tryParen (l : List Char) : Option (String × List Char) :=
  match stripPrefixChars "require".toList l with
  | none => none
  | some l1 =>
    match dropSpaces l1 with
    | '(' :: l3 =>
      match dropSpaces l3 with
      | q :: l5 =>
        if isQuote q then
          let grp := l5.takeWhile (fun c => ! isQuote c)
          match l5.drop grp.length with
          | q2 :: l7 =>
            if isQuote q2 && ! grp.isEmpty then
              match dropSpaces l7 with
              | ')' :: l9 => some (grp.asString, l9)
              | _ => none
            else none
          | [] => none
        else none
      | [] => none
    | _ => none

/-- Try the pattern `require\s+["\']([^"\']+)["\']` at the head of `l`. -/
def tryBare (l : List Char) : Option (String × List Char) :=
  match stripPrefixChars "require".toList l with
  | none => none
  | some l1 =>
    match l1 with
    | c :: _ =>
      if isSpace c then
        match dropSpaces l1 with
        | q :: l5 =>
          if isQuote q then
            let grp := l5.takeWhile (fun c => ! isQuote c)
            match l5.drop grp.length with
            | q2 :: l7 =>
              if isQuote q2 && ! grp.isEmpty then some (grp.asString, l7)
              else none
            | [] => none
          else none
        | [] => none
      else none
    | [] => none

/-- `re.findall` driver: scan left to right, collecting non-overlapping
matches of `try1`, advancing one character on failure.  Fuel dominates the
number of scan steps (the text length; every step consumes at least one
character). -/
def scanAll (try1 : List Char → Option (String × List Char)) :
    Nat → List Char → List String
  | 0, _ => []
  | _ + 1, [] => []
  | fuel + 1, l@(_ :: rest) =>
    match try1 l with
    | some (g, after) => g :: scanAll try1 fuel after
    | none => scanAll try1 fuel rest

/-- `LuaModuleResolver.get_module_dependencies`, with the file's content
passed directly (file I/O is out of scope): `re.findall` of the parenthesized
pattern, then of the bare pattern, then `list(set(...))` modelled as
first-occurrence deduplication. -/
def get_module_dependencies (content : String) : List String :=
  let cs := content.toList
  ((scanAll tryParen (cs.length + 1) cs) ++ (scanAll tryBare (cs.length + 1) cs)).eraseDups

/-- Index of the first occurrence of `a` in `l` (the position where an
emitted node appears in a sort result); `l.length` if absent. -/
def idxOf : List String → String → Nat
  | [], _ => 0
  | x :: l, a => if x = a then 0 else idxOf l a + 1

/-- The recorded-edge relation of an adjacency map: `a → b` when `b` is in
the set stored under `a` (forward map: dependency → consumer). -/
def hasEdge (g : AdjMap) (a b : String) : Prop :=
  b ∈ lookupSet g a

/-- Structural well-formedness every Python `dict`-of-`set` state has: keys
are distinct and each stored set has no duplicates. -/
def WFg (g : AdjMap) : Prop :=
  (keysOf g).Nodup ∧ ∀ e ∈ g, e.2.Nodup

/-- Every stored edge target is itself a key; `add_file`/`add_dependency`
always create the target's entry before inserting an edge, so every reachable
`DependencyGraph.graph` is closed. -/
def Closedg (g : AdjMap) : Prop :=
  ∀ e ∈ g, ∀ t ∈ e.2, t ∈ keysOf g

/-- Acyclicity: no closed edge walk `a → t₀ → ⋯ → a`. -/
def Acyclic (g : AdjMap) : Prop :=
  ∀ (a : String) (t : List String), ¬ List.Chain (hasEdge g) a (t ++ [a])

/-- The forward and reverse adjacency maps mirror each other exactly
(claim C7's invariant). -/
def Mirror (g rg : AdjMap) : Prop :=
  ∀ a b, b ∈ lookupSet g a ↔ a ∈ lookupSet rg b

/-- Claim C3's "mutual inverses on their entries" property of the
module→path / path→module maps. -/
def MutualInverses (st : DepGraph) : Prop :=
  (∀ p m, alookup st.file_to_module p = some m → alookup st.module_to_file m = some p) ∧
  (∀ m p, alookup st.module_to_file m = some p → alookup st.file_to_module p = some m)

/-- A path `p` the caller has never passed to the API leaves no trace: it
keys neither adjacency map, is the resolved path of no module, and sits in no
pending consumer set.  (Invariant behind claim C10.) -/
def Untouched (st : DepGraph) (p : String) : Prop :=
  p ∉ keysOf st.graph ∧ p ∉ keysOf st.reverse_graph ∧
  (∀ m q, alookup st.module_to_file m = some q → q ≠ p) ∧
  (∀ e ∈ st.pending_module_dependents, p ∉ e.2)

/-- In-degree bookkeeping of Kahn's algorithm after the nodes in `res` have
been emitted: the number of stored entries whose set contains `n` and whose
key is not yet emitted. -/
def degSpec (g : AdjMap) (res : List String) (n : String) : Int :=
  (g.countP (fun e => decide (n ∈ e.2 ∧ e.1 ∉ res)) : Int)

/-- A node the sort loop can ever touch: a key of the map, or a stored edge
target of a key. -/
def inReachOf (g : AdjMap) (x : String) : Prop :=
  x ∈ keysOf g ∨ ∃ d, d ∈ keysOf g ∧ x ∈ lookupSet g d

/-- Loop invariant of `kahnLoop` on a well-formed closed map: emitted and
queued nodes are distinct keys, `deg` tracks the unemitted in-degree, queued
and emitted nodes have in-degree 0, a key that is neither emitted nor queued
still has positive in-degree, and emitted nodes respect the edges. -/
structure KahnInv (g : AdjMap) (deg : String → Int) (queue res : List String) : Prop where
  nodup : (res ++ queue).Nodup
  subKeys : ∀ n ∈ res ++ queue, n ∈ keysOf g
  degEq : ∀ n, deg n = degSpec g res n
  queueZero : ∀ n ∈ queue, deg n = 0
  resZero : ∀ n ∈ res, deg n = 0
  complete : ∀ n ∈ keysOf g, n ∉ res → n ∉ queue → deg n ≠ 0
  sorted : ∀ a b, b ∈ lookupSet g a → b ∈ res → a ∈ res ∧ idxOf res a < idxOf res b

/-- A two-node acyclic graph used to instantiate the sorting theorems. -/
def exampleDag : AdjMap := [("a", ["b"]), ("b", [])]

/-- The pure three-cycle `A→B→C→A`. -/
def cyc3 : AdjMap := [("A", ["B"]), ("B", ["C"]), ("C", ["A"])]

/-- The three-cycle `A→B→C→A` with the extra chord `C→B`; key order and
`C`'s set order make the DFS record only the two-cycle `C→B→C`. -/
def gChord : AdjMap := [("C", ["B", "A"]), ("A", ["B"]), ("B", ["C"])]

/-- A graph where `/D.lua` has consumers `/S.lua` and `/X.lua`: the closure of
`/S.lua` is `{/D.lua}`, but the subgraph of `get_restoration_order` keeps
`/D.lua`'s full consumer set, so `/X.lua` is emitted too. -/
def gC1 : DepGraph := run
  [Call.addFile "/D.lua" "d" none, Call.addFile "/S.lua" "s" none,
   Call.addFile "/X.lua" "x" none, Call.addDep "/S.lua" "d",
   Call.addDep "/X.lua" "d"]

/-- Call sequence registering path `/p` twice with different non-empty
contents. -/
def csC2 : List Call :=
  [Call.addFile "/p" "m1" (some "one"), Call.addFile "/p" "m2" (some "two")]

/-- Call sequence registering module `m` under two different paths. -/
def csC3 : List Call :=
  [Call.addFile "/p1" "m" none, Call.addFile "/p2" "m" none]

/-- A file system containing only the shape-1 candidate
`lua/a/b/lua.unluac` (directory `b` holding a file named `lua.unluac`). -/
def fsC4 : List String := ["lua/a/b/lua.unluac"]

/-- Single-quote character (as a string), kept out of string literals. -/
def sq : String := (Char.ofNat 39).toString

/-- Double-quote character (as a string). -/
def dq : String := (Char.ofNat 34).toString

/-- Lua text containing `require("x.y")` twice and `require 'z'` once. -/
def sampleLua : String :=
  "local a = require(" ++ dq ++ "x.y" ++ dq ++ ")" ++ "\n" ++
  "local b = require " ++ sq ++ "z" ++ sq ++ "\n" ++
  "local c = require(" ++ dq ++ "x.y" ++ dq ++ ")" ++ "\n"

/-! ## Association-list lemmas -/

theorem alookup_asetKV {α : Type} (m : List (String × α)) (k a : String) (v : α) :
    alookup (asetKV m k v) a = if a = k then some v else alookup m a := by
  induction m with
  | nil =>
    simp only [asetKV, alookup]
    by_cases h : k = a
    · rw [if_pos h, if_pos h.symm]
    · rw [if_neg h, if_neg (fun hh => h hh.symm)]
  | cons e rest ih =>
    simp only [asetKV]
    by_cases hek : e.1 = k
    · rw [if_pos hek]
      simp only [alookup]
      by_cases hak : a = k
      · rw [if_pos hak.symm, if_pos hak]
      · have hea : ¬ e.1 = a := fun hh => hak (hh.symm.trans hek)
        rw [if_neg (fun hh : k = a => hak hh.symm), if_neg hak, if_neg hea]
    · rw [if_neg hek]
      simp only [alookup]
      by_cases hea : e.1 = a
      · have hak : ¬ a = k := fun hh => hek (hea.trans hh)
        rw [if_pos hea, if_neg hak, if_pos hea]
      · rw [if_neg hea, ih]
        by_cases hak : a = k
        · rw [if_pos hak, if_pos hak]
        · rw [if_neg hak, if_neg hak, if_neg hea]

theorem alookup_append_single {α : Type} (m : List (String × α)) (k a : String) (v : α) :
    alookup (m ++ [(k, v)]) a =
      match alookup m a with
      | some w => some w
      | none => if k = a then some v else none := by
  induction m with
  | nil => simp [alookup]
  | cons e rest ih =>
    by_cases hea : e.1 = a <;> simp [alookup, hea, ih]

theorem alookup_none_of_not_mem_keys {α : Type} (m : List (String × α)) (a : String)
    (h : a ∉ keysOf m) : alookup m a = none := by
  induction m with
  | nil => rfl
  | cons e rest ih =>
    simp only [keysOf, List.map_cons, List.mem_cons] at h
    push_neg at h
    have hne : ¬ e.1 = a := fun hh => h.1 hh.symm
    simp [alookup, hne, ih (by simpa [keysOf] using h.2)]

theorem mem_keys_of_alookup_some {α : Type} (m : List (String × α)) (a : String)
    {v : α} (h : alookup m a = some v) : a ∈ keysOf m := by
  by_contra hmem
  rw [alookup_none_of_not_mem_keys m a hmem] at h
  cases h

theorem mem_of_alookup_some {α : Type} (m : List (String × α)) (a : String)
    {v : α} (h : alookup m a = some v) : (a, v) ∈ m := by
  induction m with
  | nil => cases h
  | cons e rest ih =>
    obtain ⟨e1, e2⟩ := e
    simp only [alookup] at h
    split at h
    · rename_i he
      cases h
      subst he
      exact List.mem_cons_self _ _
    · exact List.mem_cons_of_mem _ (ih h)

theorem alookup_of_mem_of_nodup {α : Type} (m : List (String × α)) (e : String × α)
    (hm : e ∈ m) (hnd : (keysOf m).Nodup) : alookup m e.1 = some e.2 := by
  induction m with
  | nil => cases hm
  | cons f rest ih =>
    simp only [keysOf, List.map_cons, List.nodup_cons] at hnd
    rcases List.mem_cons.mp hm with h | h
    · subst h; simp [alookup]
    · have hne : f.1 ≠ e.1 := by
        intro hh
        exact hnd.1 (hh ▸ (List.mem_map.mpr ⟨e, h, rfl⟩))
      simp [alookup, hne, ih h (by simpa [keysOf] using hnd.2)]

theorem alookup_aerase {α : Type} (m : List (String × α)) (k a : String) :
    alookup (aerase m k) a = if a = k then none else alookup m a := by
  induction m with
  | nil => simp [aerase, alookup]
  | cons e rest ih =>
    simp only [aerase]
    by_cases hek : e.1 = k
    · rw [if_pos hek, ih]
      by_cases hak : a = k
      · rw [if_pos hak, if_pos hak]
      · have hea : ¬ e.1 = a := fun hh => hak ((hh.symm.trans hek))
        rw [if_neg hak, if_neg hak]
        simp only [alookup]
        rw [if_neg hea]
    · rw [if_neg hek]
      simp only [alookup]
      by_cases hea : e.1 = a
      · have hak : ¬ a = k := fun hh => hek (hea.trans hh)
        rw [if_pos hea, if_neg hak, if_pos hea]
      · rw [if_neg hea, ih]
        by_cases hak : a = k
        · rw [if_pos hak, if_pos hak]
        · rw [if_neg hak, if_neg hak, if_neg hea]

theorem lookupSet_ensureKey (m : AdjMap) (k a : String) :
    lookupSet (ensureKey m k) a = lookupSet m a := by
  unfold ensureKey
  cases hk : alookup m k with
  | some s => rfl
  | none =>
    unfold lookupSet
    rw [alookup_append_single]
    cases ha : alookup m a with
    | some s => rfl
    | none =>
      by_cases hka : k = a
      · subst hka; simp
      · simp [hka]

theorem lookupSet_addToSet (m : AdjMap) (k x a : String) :
    lookupSet (addToSet m k x) a =
      if a = k then
        (if x ∈ lookupSet m k then lookupSet m k else lookupSet m k ++ [x])
      else lookupSet m a := by
  unfold addToSet lookupSet
  rw [alookup_asetKV]
  by_cases h : a = k <;> simp [h, lookupSet]

theorem mem_lookupSet_addToSet (m : AdjMap) (k x a b : String) :
    b ∈ lookupSet (addToSet m k x) a ↔
      (b ∈ lookupSet m a ∨ (a = k ∧ b = x)) := by
  rw [lookupSet_addToSet]
  by_cases h : a = k
  · rcases h with rfl
    rw [if_pos rfl]
    by_cases hx : x ∈ lookupSet m a
    · rw [if_pos hx]
      constructor
      · exact fun hb => Or.inl hb
      · rintro (hb | ⟨-, hb⟩)
        · exact hb
        · rw [hb]; exact hx
    · rw [if_neg hx]
      simp only [List.mem_append, List.mem_singleton]
      constructor
      · rintro (hb | hb)
        · exact Or.inl hb
        · exact Or.inr ⟨by trivial, hb⟩
      · rintro (hb | ⟨-, hb⟩)
        · exact Or.inl hb
        · exact Or.inr hb
  · simp [h]

theorem mem_keysOf_asetKV {α : Type} (m : List (String × α)) (k a : String) (v : α) :
    a ∈ keysOf (asetKV m k v) ↔ a ∈ keysOf m ∨ a = k := by
  induction m with
  | nil => simp [asetKV, keysOf]
  | cons e rest ih =>
    simp only [asetKV]
    by_cases hek : e.1 = k
    · rw [if_pos hek]
      simp only [keysOf, List.map_cons, List.mem_cons]
      constructor
      · rintro (h1 | h1)
        · exact Or.inr h1
        · exact Or.inl (Or.inr h1)
      · rintro ((h1 | h1) | h1)
        · exact Or.inl (h1.trans hek)
        · exact Or.inr h1
        · exact Or.inl h1
    · rw [if_neg hek]
      simp only [keysOf, List.map_cons, List.mem_cons] at ih ⊢
      rw [ih]
      tauto

theorem mem_keysOf_addToSet (m : AdjMap) (k x a : String) :
    a ∈ keysOf (addToSet m k x) ↔ a ∈ keysOf m ∨ a = k := by
  unfold addToSet
  exact mem_keysOf_asetKV m k a _

theorem mem_keysOf_ensureKey (m : AdjMap) (k a : String) :
    a ∈ keysOf (ensureKey m k) ↔ a ∈ keysOf m ∨ a = k := by
  unfold ensureKey
  cases hk : alookup m k with
  | some s =>
    constructor
    · exact Or.inl
    · rintro (h | h)
      · exact h
      · exact h ▸ mem_keys_of_alookup_some m k hk
  | none => simp [keysOf]

/-! ## Module resolver (C4) -/

theorem find_append_cases (p : String → Bool) (l1 l2 : List String) :
    (l1 ++ l2).find? p =
      match l1.find? p with
      | some x => some x
      | none => l2.find? p := by
  induction l1 with
  | nil => rfl
  | cons a l ih =>
    by_cases h : p a = true
    · rw [List.cons_append, List.find?_cons_of_pos _ h, List.find?_cons_of_pos _ h]
    · rw [List.cons_append, List.find?_cons_of_neg _ (by simpa using h),
        List.find?_cons_of_neg _ (by simpa using h), ih]

theorem tryExtensions_eq_find (fs : List String) (parts : List String) (base : String)
    (exts : List String) :
    tryExtensions fs parts base exts =
      (exts.flatMap (fun e => [cand1 base parts e, cand2 base parts e])).find?
        (fun c => fs.contains c) := by
  induction exts with
  | nil => rfl
  | cons e rest ih =>
    simp only [tryExtensions, List.flatMap_cons, List.cons_append]
    by_cases h1 : fs.contains (cand1 base parts e) = true
    · rw [if_pos h1, List.find?_cons_of_pos _ h1]
    · rw [if_neg h1, List.find?_cons_of_neg _ (by simpa using h1)]
      by_cases h2 : fs.contains (cand2 base parts e) = true
      · rw [if_pos h2]
        simp only [List.nil_append]
        rw [List.find?_cons_of_pos _ h2]
      · rw [if_neg h2]
        simp only [List.nil_append]
        rw [List.find?_cons_of_neg _ (by simpa using h2), ih]

/-- C4 (amended): `resolve_module_to_path` returns the first existing
candidate of the list that probes, for each base directory in configured
order (outer) and each extension in priority order (inner), first the
directory-shaped candidate `base/<segments>/<ext without leading dot>` and
then the concatenated candidate `base/<segments> + ext`; `none` when no
candidate exists.  This corrects C4's assertion that the concatenated shape
is the only candidate shape. -/
theorem resolve_module_probe_order (fs basePaths : List String) (name : String) :
    resolve_module_to_path fs basePaths name =
      (codeCandidates basePaths (splitOnDot name)).find? (fun c => fs.contains c) := by
  unfold resolve_module_to_path codeCandidates
  induction basePaths with
  | nil => rfl
  | cons b bs ih =>
    simp only [tryBases, List.flatMap_cons]
    rw [find_append_cases]
    rw [tryExtensions_eq_find fs (splitOnDot name) b extList]
    cases (extList.flatMap (fun e =>
        [cand1 b (splitOnDot name) e, cand2 b (splitOnDot name) e])).find?
        (fun c => fs.contains c) with
    | some p => rfl
    | none => exact ih

/-- C4 counterexample: with base path `lua` and module `a.b`, a file system
containing only `lua/a/b/lua.unluac` (candidate shape 1, which the claim says
does not exist) makes the code return that file while the claim's candidate
scheme — concatenated shape only — finds nothing. -/
theorem resolve_extra_shape_counterexample :
    resolve_module_to_path fsC4 ["lua"] "a.b" = some "lua/a/b/lua.unluac" ∧
    resolveClaimC4 fsC4 ["lua"] "a.b" = none := by
  exact ⟨rfl, rfl⟩

/-! ## Reference extraction (C9) -/

/-- C9: on text containing `require("x.y")` (twice) and `require 'z'`, the
extraction returns exactly the set `{"x.y", "z"}`, with the duplicate
reference collapsed. -/
theorem extract_references_sample :
    (get_module_dependencies sampleLua).toFinset = ({"x.y", "z"} : Finset String) ∧
    (get_module_dependencies sampleLua).Nodup := by
  have h : get_module_dependencies sampleLua = ["x.y", "z"] := by rfl
  rw [h]
  exact ⟨by decide, by decide⟩

/-! ## Content cache (C2) -/

/-- C2 counterexample: after `addFile("/p", "m1", "one")` and
`addFile("/p", "m2", "two")` the cached content for `/p` is `"two"`, not the
first registration's `"one"` — `add_file` overwrites the cache whenever it is
given truthy content. -/
theorem cached_content_overwritten :
    alookup (run csC2).file_contents "/p" = some "two" ∧ ("two" : String) ≠ "one" :=
  ⟨rfl, by decide⟩

/-- C2 (amended): for non-empty contents, a second registration of the same
path overwrites the cache — the cached content afterwards is the second
content, from any starting state. -/
theorem second_content_wins (st : DepGraph) (p m1 m2 c1 c2 : String)
    (_h1 : c1 ≠ "") (h2 : c2 ≠ "") :
    alookup (add_file (add_file st p m1 (some c1)) p m2 (some c2)).file_contents p
      = some c2 := by
  show alookup (if c2 = "" then (add_file st p m1 (some c1)).file_contents
    else asetKV (add_file st p m1 (some c1)).file_contents p c2) p = some c2
  rw [if_neg h2, alookup_asetKV, if_pos rfl]

/-- Witness for `second_content_wins` at a concrete state and contents. -/
theorem second_content_wins_witness :
    ("one" : String) ≠ "" ∧ ("two" : String) ≠ "" ∧
    alookup (add_file (add_file emptyGraph "/p" "m1" (some "one")) "/p" "m2"
      (some "two")).file_contents "/p" = some "two" :=
  ⟨by decide, by decide,
    second_content_wins emptyGraph "/p" "m1" "m2" "one" "two" (by decide) (by decide)⟩

/-! ## Module/path maps (C3) -/

/-- C3 counterexample: after registering `/p1` then `/p2` under the same
module `m`, `file_to_module` still maps `/p1 → m` while `module_to_file`
maps `m → /p2`, so the two maps are not mutual inverses on their entries. -/
theorem module_maps_not_mutual_inverses :
    ¬ MutualInverses (run csC3) := by
  intro h
  have h1 : alookup (run csC3).file_to_module "/p1" = some "m" := rfl
  have h2 := h.1 "/p1" "m" h1
  rw [show alookup (run csC3).module_to_file "m" = some "/p2" from rfl] at h2
  exact absurd h2 (by decide)

theorem module_map_lookups_preserved (m p : String) :
    ∀ (cs : List Call) (st : DepGraph),
      (∀ c' ∈ cs, ∀ p' m' ct, c' = Call.addFile p' m' ct → m' ≠ m ∧ p' ≠ p) →
      alookup st.module_to_file m = some p →
      alookup st.file_to_module p = some m →
      alookup (cs.foldl step st).module_to_file m = some p ∧
      alookup (cs.foldl step st).file_to_module p = some m := by
  intro cs
  induction cs with
  | nil => exact fun st _ hm hf => ⟨hm, hf⟩
  | cons c' rest ih =>
    intro st h hm hf
    simp only [List.foldl_cons]
    apply ih
    · exact fun x hx => h x (List.mem_cons_of_mem _ hx)
    · cases c' with
      | addFile p' m' ct =>
        obtain ⟨hmne, hpne⟩ := h _ (List.mem_cons_self _ _) p' m' ct rfl
        show alookup (asetKV st.module_to_file m' p') m = some p
        rw [alookup_asetKV, if_neg (fun hh => hmne hh.symm)]
        exact hm
      | addDep f mm =>
        show alookup (add_dependency st f mm).module_to_file m = some p
        unfold add_dependency
        split <;> exact hm
    · cases c' with
      | addFile p' m' ct =>
        obtain ⟨hmne, hpne⟩ := h _ (List.mem_cons_self _ _) p' m' ct rfl
        show alookup (asetKV st.file_to_module p' m') p = some m
        rw [alookup_asetKV, if_neg (fun hh => hpne hh.symm)]
        exact hf
      | addDep f mm =>
        show alookup (add_dependency st f mm).file_to_module p = some m
        unfold add_dependency
        split <;> exact hf

/-- C3 (amended): each map is single-valued with the last registration
winning — after any call sequence whose suffix after `addFile(p, m, c)`
registers neither module `m` nor path `p` again, `module_to_file` maps `m`
to `p` and `file_to_module` maps `p` to `m`.  The mutual-inverse part of C3
is dropped: superseded entries persist and may disagree
(`module_maps_not_mutual_inverses`). -/
theorem module_maps_last_registration_wins (cs1 cs2 : List Call) (p m : String)
    (c : Option String)
    (h2 : ∀ c' ∈ cs2, ∀ p' m' ct, c' = Call.addFile p' m' ct → m' ≠ m ∧ p' ≠ p) :
    alookup (run (cs1 ++ Call.addFile p m c :: cs2)).module_to_file m = some p ∧
    alookup (run (cs1 ++ Call.addFile p m c :: cs2)).file_to_module p = some m := by
  unfold run
  rw [List.foldl_append]
  simp only [List.foldl_cons]
  apply module_map_lookups_preserved m p cs2 _ h2
  · show alookup (asetKV (List.foldl step emptyGraph cs1).module_to_file m p) m = some p
    rw [alookup_asetKV, if_pos rfl]
  · show alookup (asetKV (List.foldl step emptyGraph cs1).file_to_module p m) p = some m
    rw [alookup_asetKV, if_pos rfl]

/-- Witness for `module_maps_last_registration_wins` on the concrete
two-registration sequence. -/
theorem module_maps_last_registration_wins_witness :
    alookup (run ([Call.addFile "/p1" "m" none] ++ Call.addFile "/p2" "m" none :: [])).module_to_file "m" = some "/p2" ∧
    alookup (run ([Call.addFile "/p1" "m" none] ++ Call.addFile "/p2" "m" none :: [])).file_to_module "/p2" = some "m" :=
  module_maps_last_registration_wins [Call.addFile "/p1" "m" none] [] "/p2" "m" none
    (by intro c' hc'; cases hc')

/-! ## Pending-dependency resolution (C6) -/

theorem fold_pair_preserve (fp x a : String) (L : List String) :
    ∀ (gr : AdjMap × AdjMap), x ∈ lookupSet gr.2 a →
      x ∈ lookupSet (L.foldl
        (fun pr consumer => (addToSet pr.1 fp consumer, addToSet pr.2 consumer fp))
        gr).2 a := by
  induction L with
  | nil => exact fun gr h => h
  | cons d rest ih =>
    intro gr h
    simp only [List.foldl_cons]
    apply ih
    show x ∈ lookupSet (addToSet gr.2 d fp) a
    rw [mem_lookupSet_addToSet]
    exact Or.inl h

theorem fold_pair_mem (fp : String) (L : List String) :
    ∀ (gr : AdjMap × AdjMap) (c : String), c ∈ L →
      fp ∈ lookupSet (L.foldl
        (fun pr consumer => (addToSet pr.1 fp consumer, addToSet pr.2 consumer fp))
        gr).2 c := by
  induction L with
  | nil => intro gr c hc; cases hc
  | cons d rest ih =>
    intro gr c hc
    simp only [List.foldl_cons]
    rcases List.mem_cons.mp hc with h | h
    · subst h
      apply fold_pair_preserve
      show fp ∈ lookupSet (addToSet gr.2 c fp) c
      rw [mem_lookupSet_addToSet]
      exact Or.inr ⟨rfl, rfl⟩
    · exact ih _ c h

/-- C6: from any state in which module `m` is not yet registered, after
`addDependency(C, m)` followed by `addFile(P, m)`, `getDependencies(C)`
contains `P` and the pending map holds no entry for `m` any more. -/
theorem pending_dependency_resolved (st : DepGraph) (C P m : String)
    (hm : alookup st.module_to_file m = none) :
    P ∈ get_dependencies (add_file (add_dependency st C m) P m none) C ∧
    alookup (add_file (add_dependency st C m) P m none).pending_module_dependents m
      = none := by
  have hp : (add_dependency st C m).pending_module_dependents
      = addToSet st.pending_module_dependents m C := by
    unfold add_dependency
    rw [hm]
  constructor
  · show P ∈ lookupSet
      ((lookupSet (add_dependency st C m).pending_module_dependents m).foldl
        (fun pr consumer => (addToSet pr.1 P consumer, addToSet pr.2 consumer P))
        (ensureKey (add_dependency st C m).graph P,
         ensureKey (add_dependency st C m).reverse_graph P)).2 C
    rw [hp]
    apply fold_pair_mem
    rw [mem_lookupSet_addToSet]
    exact Or.inr ⟨rfl, rfl⟩
  · show alookup (aerase (add_dependency st C m).pending_module_dependents m) m = none
    rw [alookup_aerase, if_pos rfl]

/-- Witness for `pending_dependency_resolved` on the empty starting state. -/
theorem pending_dependency_resolved_witness :
    alookup emptyGraph.module_to_file "m" = none ∧
    ("/pm.lua" ∈ get_dependencies
      (add_file (add_dependency emptyGraph "/c.lua" "m") "/pm.lua" "m" none) "/c.lua" ∧
     alookup (add_file (add_dependency emptyGraph "/c.lua" "m") "/pm.lua" "m"
       none).pending_module_dependents "m" = none) :=
  ⟨rfl, pending_dependency_resolved emptyGraph "/c.lua" "/pm.lua" "m" rfl⟩

/-! ## Forward/reverse mirroring (C7) -/

theorem mirror_of_lookup_eq_left {g g2 rg : AdjMap}
    (he : ∀ a, lookupSet g2 a = lookupSet g a) (h : Mirror g rg) : Mirror g2 rg := by
  intro a b
  rw [he a]
  exact h a b

theorem mirror_of_lookup_eq_right {g rg rg2 : AdjMap}
    (he : ∀ a, lookupSet rg2 a = lookupSet rg a) (h : Mirror g rg) : Mirror g rg2 := by
  intro a b
  rw [he b]
  exact h a b

theorem mirror_addToSet_pair {g rg : AdjMap} (k x : String) (h : Mirror g rg) :
    Mirror (addToSet g k x) (addToSet rg x k) := by
  intro a b
  rw [mem_lookupSet_addToSet, mem_lookupSet_addToSet, h a b]
  tauto

theorem mirror_fold_pair (fp : String) (L : List String) :
    ∀ gr : AdjMap × AdjMap, Mirror gr.1 gr.2 →
      Mirror (L.foldl (fun pr c => (addToSet pr.1 fp c, addToSet pr.2 c fp)) gr).1
        (L.foldl (fun pr c => (addToSet pr.1 fp c, addToSet pr.2 c fp)) gr).2 := by
  induction L with
  | nil => exact fun gr h => h
  | cons d rest ih =>
    intro gr h
    simp only [List.foldl_cons]
    exact ih _ (mirror_addToSet_pair fp d h)

theorem mirror_step (st : DepGraph) (c : Call)
    (h : Mirror st.graph st.reverse_graph) :
    Mirror (step st c).graph (step st c).reverse_graph := by
  cases c with
  | addFile p m ct =>
    show Mirror
      ((lookupSet st.pending_module_dependents m).foldl
        (fun pr consumer => (addToSet pr.1 p consumer, addToSet pr.2 consumer p))
        (ensureKey st.graph p, ensureKey st.reverse_graph p)).1
      ((lookupSet st.pending_module_dependents m).foldl
        (fun pr consumer => (addToSet pr.1 p consumer, addToSet pr.2 consumer p))
        (ensureKey st.graph p, ensureKey st.reverse_graph p)).2
    apply mirror_fold_pair
    exact mirror_of_lookup_eq_left (fun a => lookupSet_ensureKey _ _ _)
      (mirror_of_lookup_eq_right (fun a => lookupSet_ensureKey _ _ _) h)
  | addDep f mm =>
    show Mirror (add_dependency st f mm).graph (add_dependency st f mm).reverse_graph
    unfold add_dependency
    cases hres : alookup st.module_to_file mm with
    | some tf =>
      apply mirror_addToSet_pair
      exact mirror_of_lookup_eq_left
        (fun a => by rw [lookupSet_ensureKey, lookupSet_ensureKey])
        (mirror_of_lookup_eq_right (fun a => lookupSet_ensureKey _ _ _) h)
    | none =>
      exact mirror_of_lookup_eq_left (fun a => lookupSet_ensureKey _ _ _) h

/-- C7: after every sequence of `addFile`/`addDependency` calls, the forward
and reverse adjacency maps mirror each other exactly:
`B ∈ forward[A] ↔ A ∈ reverse[B]`. -/
theorem forward_reverse_mirror (cs : List Call) (A B : String) :
    B ∈ lookupSet (run cs).graph A ↔ A ∈ lookupSet (run cs).reverse_graph B := by
  have main : ∀ (l : List Call) (st : DepGraph), Mirror st.graph st.reverse_graph →
      Mirror (l.foldl step st).graph (l.foldl step st).reverse_graph := by
    intro l
    induction l with
    | nil => exact fun st h => h
    | cons c rest ih =>
      intro st h
      simp only [List.foldl_cons]
      exact ih _ (mirror_step st c h)
  exact main cs emptyGraph (fun a b => by simp [lookupSet, alookup, emptyGraph]) A B

/-! ## Queries on never-registered paths (C10) -/

theorem mem_asetKV_cases {α : Type} (m : List (String × α)) (k : String) (v : α)
    (e : String × α) (h : e ∈ asetKV m k v) : e = (k, v) ∨ e ∈ m := by
  induction m with
  | nil =>
    simp only [asetKV] at h
    exact Or.inl (List.mem_singleton.mp h)
  | cons f rest ih =>
    simp only [asetKV] at h
    by_cases hfk : f.1 = k
    · rw [if_pos hfk] at h
      rcases List.mem_cons.mp h with h1 | h1
      · exact Or.inl h1
      · exact Or.inr (List.mem_cons_of_mem _ h1)
    · rw [if_neg hfk] at h
      rcases List.mem_cons.mp h with h1 | h1
      · exact Or.inr (by rw [h1]; exact List.mem_cons_self _ _)
      · rcases ih h1 with h2 | h2
        · exact Or.inl h2
        · exact Or.inr (List.mem_cons_of_mem _ h2)

theorem mem_aerase_subset {α : Type} (m : List (String × α)) (k : String)
    (e : String × α) (h : e ∈ aerase m k) : e ∈ m := by
  induction m with
  | nil => simp [aerase] at h
  | cons f rest ih =>
    simp only [aerase] at h
    by_cases hfk : f.1 = k
    · rw [if_pos hfk] at h
      exact List.mem_cons_of_mem _ (ih h)
    · rw [if_neg hfk] at h
      rcases List.mem_cons.mp h with h1 | h1
      · rw [h1]; exact List.mem_cons_self _ _
      · exact List.mem_cons_of_mem _ (ih h1)

theorem exists_entry_of_mem_lookupSet (m : AdjMap) (k x : String)
    (h : x ∈ lookupSet m k) : ∃ e ∈ m, e.1 = k ∧ x ∈ e.2 := by
  unfold lookupSet at h
  cases hl : alookup m k with
  | none => rw [hl] at h; cases h
  | some s =>
    rw [hl] at h
    exact ⟨(k, s), mem_of_alookup_some m k hl, rfl, h⟩

theorem fold_pair_keys1 (fp a : String) (L : List String) :
    ∀ gr : AdjMap × AdjMap,
      a ∈ keysOf (L.foldl
        (fun pr c => (addToSet pr.1 fp c, addToSet pr.2 c fp)) gr).1 →
      a ∈ keysOf gr.1 ∨ a = fp := by
  induction L with
  | nil => exact fun gr h => Or.inl h
  | cons d rest ih =>
    intro gr h
    simp only [List.foldl_cons] at h
    rcases ih _ h with h1 | h1
    · rcases (mem_keysOf_addToSet _ _ _ _).mp h1 with h2 | h2
      · exact Or.inl h2
      · exact Or.inr h2
    · exact Or.inr h1

theorem fold_pair_keys2 (fp a : String) (L : List String) :
    ∀ gr : AdjMap × AdjMap,
      a ∈ keysOf (L.foldl
        (fun pr c => (addToSet pr.1 fp c, addToSet pr.2 c fp)) gr).2 →
      a ∈ keysOf gr.2 ∨ a ∈ L := by
  induction L with
  | nil => exact fun gr h => Or.inl h
  | cons d rest ih =>
    intro gr h
    simp only [List.foldl_cons] at h
    rcases ih _ h with h1 | h1
    · rcases (mem_keysOf_addToSet _ _ _ _).mp h1 with h2 | h2
      · exact Or.inl h2
      · exact Or.inr (by rw [h2]; exact List.mem_cons_self _ _)
    · exact Or.inr (List.mem_cons_of_mem _ h1)

theorem untouched_addToSet_adj (m : AdjMap) (k x p : String)
    (hval : ∀ e ∈ m, p ∉ e.2) (hx : p ≠ x) :
    ∀ e ∈ addToSet m k x, p ∉ e.2 := by
  intro e he
  rcases mem_asetKV_cases _ _ _ _ he with h1 | h1
  · rw [h1]
    intro hmem
    by_cases hs : x ∈ lookupSet m k
    · rw [if_pos hs] at hmem
      obtain ⟨e2, he2, -, hp2⟩ := exists_entry_of_mem_lookupSet m k p hmem
      exact hval e2 he2 hp2
    · rw [if_neg hs] at hmem
      rcases List.mem_append.mp hmem with h2 | h2
      · obtain ⟨e2, he2, -, hp2⟩ := exists_entry_of_mem_lookupSet m k p h2
        exact hval e2 he2 hp2
      · exact hx (List.mem_singleton.mp h2)
  · exact hval e h1

theorem untouched_step (st : DepGraph) (p : String) (c : Call)
    (hc : p ∉ callPaths c) (h : Untouched st p) : Untouched (step st c) p := by
  obtain ⟨hg, hrg, hmtf, hpend⟩ := h
  cases c with
  | addFile q m ct =>
    have hqp : ¬ p = q := by simpa [callPaths] using hc
    refine ⟨?_, ?_, ?_, ?_⟩
    · intro hmem
      have hmem2 : p ∈ keysOf
          ((lookupSet st.pending_module_dependents m).foldl
            (fun pr consumer => (addToSet pr.1 q consumer, addToSet pr.2 consumer q))
            (ensureKey st.graph q, ensureKey st.reverse_graph q)).1 := hmem
      rcases fold_pair_keys1 q p _ _ hmem2 with h1 | h1
      · rcases (mem_keysOf_ensureKey _ _ _).mp h1 with h2 | h2
        · exact hg h2
        · exact hqp h2
      · exact hqp h1
    · intro hmem
      have hmem2 : p ∈ keysOf
          ((lookupSet st.pending_module_dependents m).foldl
            (fun pr consumer => (addToSet pr.1 q consumer, addToSet pr.2 consumer q))
            (ensureKey st.graph q, ensureKey st.reverse_graph q)).2 := hmem
      rcases fold_pair_keys2 q p _ _ hmem2 with h1 | h1
      · rcases (mem_keysOf_ensureKey _ _ _).mp h1 with h2 | h2
        · exact hrg h2
        · exact hqp h2
      · obtain ⟨e2, he2, -, hp2⟩ :=
          exists_entry_of_mem_lookupSet st.pending_module_dependents m p h1
        exact hpend e2 he2 hp2
    · intro m2 q2 hq2
      have hq3 : alookup (asetKV st.module_to_file m q) m2 = some q2 := hq2
      rw [alookup_asetKV] at hq3
      by_cases hm2 : m2 = m
      · rw [if_pos hm2] at hq3
        cases hq3
        exact fun hh => hqp hh.symm
      · rw [if_neg hm2] at hq3
        exact hmtf m2 q2 hq3
    · intro e he
      exact hpend e (mem_aerase_subset _ _ _ he)
  | addDep f mm =>
    have hfp : ¬ p = f := by simpa [callPaths] using hc
    show Untouched (add_dependency st f mm) p
    unfold add_dependency
    cases hres : alookup st.module_to_file mm with
    | some tf =>
      have htf : tf ≠ p := hmtf mm tf hres
      refine ⟨?_, ?_, hmtf, hpend⟩
      · intro hmem
        rcases (mem_keysOf_addToSet _ _ _ _).mp hmem with h1 | h1
        · rcases (mem_keysOf_ensureKey _ _ _).mp h1 with h2 | h2
          · rcases (mem_keysOf_ensureKey _ _ _).mp h2 with h3 | h3
            · exact hg h3
            · exact hfp h3
          · exact htf h2.symm
        · exact htf h1.symm
      · intro hmem
        rcases (mem_keysOf_addToSet _ _ _ _).mp hmem with h1 | h1
        · rcases (mem_keysOf_ensureKey _ _ _).mp h1 with h2 | h2
          · exact hrg h2
          · exact hfp h2
        · exact hfp h1
    | none =>
      refine ⟨?_, hrg, hmtf, ?_⟩
      · intro hmem
        rcases (mem_keysOf_ensureKey _ _ _).mp hmem with h1 | h1
        · exact hg h1
        · exact hfp h1
      · exact untouched_addToSet_adj _ _ _ _ hpend (fun hh => hfp hh)

/-- C10: for a path `p` never passed to `addFile` or `addDependency`, both
`getDependencies(p)` and `getDependents(p)` return the empty set.  The
queries themselves are lookups through `dict.get` and are modelled as pure
functions — in the source they never create an entry. -/
theorem untouched_path_queries_empty (cs : List Call) (p : String)
    (hp : ∀ c ∈ cs, p ∉ callPaths c) :
    get_dependencies (run cs) p = [] ∧ get_dependents (run cs) p = [] := by
  have main : ∀ (l : List Call) (st : DepGraph),
      (∀ c ∈ l, p ∉ callPaths c) → Untouched st p →
      Untouched (l.foldl step st) p := by
    intro l
    induction l with
    | nil => exact fun st _ h => h
    | cons c rest ih =>
      intro st h hu
      simp only [List.foldl_cons]
      exact ih _ (fun x hx => h x (List.mem_cons_of_mem _ hx))
        (untouched_step st p c (h c (List.mem_cons_self _ _)) hu)
  have hempty : Untouched emptyGraph p := by
    refine ⟨?_, ?_, ?_, ?_⟩
    · simp [keysOf, emptyGraph]
    · simp [keysOf, emptyGraph]
    · intro m q h
      exact absurd h (by simp [emptyGraph, alookup])
    · intro e he
      exact absurd he (by simp [emptyGraph])
  obtain ⟨hg2, hrg2, -, -⟩ := main cs emptyGraph hp hempty
  constructor
  · show (alookup (List.foldl step emptyGraph cs).reverse_graph p).getD [] = []
    rw [alookup_none_of_not_mem_keys _ _ hrg2]
    rfl
  · show (alookup (List.foldl step emptyGraph cs).graph p).getD [] = []
    rw [alookup_none_of_not_mem_keys _ _ hg2]
    rfl

/-- Witness for `untouched_path_queries_empty`. -/
theorem untouched_path_queries_empty_witness :
    (∀ c ∈ [Call.addFile "/a.lua" "a" none], "/b.lua" ∉ callPaths c) ∧
    (get_dependencies (run [Call.addFile "/a.lua" "a" none]) "/b.lua" = [] ∧
     get_dependents (run [Call.addFile "/a.lua" "a" none]) "/b.lua" = []) :=
  ⟨by decide, untouched_path_queries_empty [Call.addFile "/a.lua" "a" none] "/b.lua"
    (by decide)⟩

/-! ## Kahn's algorithm: basic lemmas -/

theorem idxOf_lt_length (l : List String) (a : String) (h : a ∈ l) :
    idxOf l a < l.length := by
  induction l with
  | nil => cases h
  | cons x rest ih =>
    simp only [idxOf, List.length_cons]
    by_cases hx : x = a
    · rw [if_pos hx]
      omega
    · rw [if_neg hx]
      have : a ∈ rest := by
        rcases List.mem_cons.mp h with h1 | h1
        · exact absurd h1.symm hx
        · exact h1
      have := ih this
      omega

theorem idxOf_append_left (l l2 : List String) (a : String) (h : a ∈ l) :
    idxOf (l ++ l2) a = idxOf l a := by
  induction l with
  | nil => cases h
  | cons x rest ih =>
    simp only [List.cons_append, List.append_eq, idxOf]
    by_cases hx : x = a
    · rw [if_pos hx, if_pos hx]
    · rw [if_neg hx, if_neg hx]
      have : a ∈ rest := by
        rcases List.mem_cons.mp h with h1 | h1
        · exact absurd h1.symm hx
        · exact h1
      rw [ih this]

theorem idxOf_append_fresh (l : List String) (a : String) (h : a ∉ l) :
    idxOf (l ++ [a]) a = l.length := by
  induction l with
  | nil => simp [idxOf]
  | cons x rest ih =>
    simp only [List.cons_append, List.append_eq, idxOf, List.length_cons]
    have hx : ¬ x = a := fun hh => h (by rw [hh]; exact List.mem_cons_self _ _)
    rw [if_neg hx, ih (fun hh => h (List.mem_cons_of_mem _ hh))]

theorem nodup_subset_length_le (l l2 : List String) (hnd : l.Nodup)
    (hsub : ∀ x ∈ l, x ∈ l2) : l.length ≤ l2.length := by
  have h1 : l.toFinset.card = l.length := List.toFinset_card_of_nodup hnd
  have h2 : l.toFinset ⊆ l2.toFinset := by
    intro x hx
    exact List.mem_toFinset.mpr (hsub x (List.mem_toFinset.mp hx))
  have h3 : l.toFinset.card ≤ l2.toFinset.card := Finset.card_le_card h2
  have h4 : l2.toFinset.card ≤ l2.length := List.toFinset_card_le l2
  omega

theorem nodup_ssubset_length_lt (l l2 : List String) (hnd : l.Nodup)
    (hsub : ∀ x ∈ l, x ∈ l2) (a : String) (ha2 : a ∈ l2) (ha1 : a ∉ l) :
    l.length < l2.length := by
  have h1 : l.toFinset.card = l.length := List.toFinset_card_of_nodup hnd
  have h2 : l.toFinset ⊂ l2.toFinset := by
    constructor
    · intro x hx
      exact List.mem_toFinset.mpr (hsub x (List.mem_toFinset.mp hx))
    · intro hsup
      exact ha1 (List.mem_toFinset.mp (hsup (List.mem_toFinset.mpr ha2)))
  have h3 : l.toFinset.card < l2.toFinset.card := Finset.card_lt_card h2
  have h4 : l2.toFinset.card ≤ l2.length := List.toFinset_card_le l2
  omega

theorem alookup_isSome_of_mem_keys {α : Type} (m : List (String × α)) (a : String)
    (h : a ∈ keysOf m) : ∃ v, alookup m a = some v := by
  induction m with
  | nil => cases h
  | cons e rest ih =>
    by_cases hea : e.1 = a
    · exact ⟨e.2, by simp [alookup, hea]⟩
    · rcases List.mem_cons.mp h with h1 | h1
      · exact absurd h1.symm hea
      · obtain ⟨v, hv⟩ := ih h1
        exact ⟨v, by simp [alookup, hea, hv]⟩

theorem lookupSet_of_mem_of_nodup (g : AdjMap) (e : String × List String)
    (he : e ∈ g) (hnd : (keysOf g).Nodup) : lookupSet g e.1 = e.2 := by
  unfold lookupSet
  rw [alookup_of_mem_of_nodup g e he hnd]
  rfl

theorem mem_keys_entry (g : AdjMap) (a : String) (h : a ∈ keysOf g)
    (_hnd : (keysOf g).Nodup) : (a, lookupSet g a) ∈ g := by
  obtain ⟨v, hv⟩ := alookup_isSome_of_mem_keys g a h
  have := mem_of_alookup_some g a hv
  have hls : lookupSet g a = v := by unfold lookupSet; rw [hv]; rfl
  rw [hls]
  exact this

theorem processDeps_deg (cs : List String) :
    ∀ (deg : String → Int) (q : List String), cs.Nodup →
      ∀ n, (processDeps cs deg q).1 n = deg n - (if n ∈ cs then 1 else 0) := by
  induction cs with
  | nil =>
    intro deg q _ n
    simp [processDeps]
  | cons d ds ih =>
    intro deg q hnd n
    obtain ⟨hd, hds⟩ := List.nodup_cons.mp hnd
    simp only [processDeps]
    rw [ih _ _ hds]
    by_cases hn : n = d
    · subst hn
      rw [if_neg hd, if_pos (List.mem_cons_self _ _), if_pos rfl]
      omega
    · have h2 : (n ∈ d :: ds) ↔ (n ∈ ds) := by
        constructor
        · intro h
          rcases List.mem_cons.mp h with h1 | h1
          · exact absurd h1 hn
          · exact h1
        · exact List.mem_cons_of_mem _
      rw [if_neg hn]
      by_cases hmem : n ∈ ds
      · rw [if_pos hmem, if_pos (h2.mpr hmem)]
      · rw [if_neg hmem, if_neg (fun hh => hmem (h2.mp hh))]

theorem processDeps_queue (cs : List String) :
    ∀ (deg : String → Int) (q : List String), cs.Nodup →
      (processDeps cs deg q).2 = q ++ cs.filter (fun d => decide (deg d = 1)) := by
  induction cs with
  | nil =>
    intro deg q _
    simp [processDeps]
  | cons d ds ih =>
    intro deg q hnd
    obtain ⟨hd, hds⟩ := List.nodup_cons.mp hnd
    simp only [processDeps]
    rw [ih _ _ hds]
    have hfc : ds.filter (fun x => decide ((if x = d then deg x - 1 else deg x) = 1))
        = ds.filter (fun x => decide (deg x = 1)) := by
      apply List.filter_congr
      intro x hx
      have hxd : ¬ x = d := fun hh => hd (hh ▸ hx)
      rw [if_neg hxd]
    rw [hfc]
    rw [List.filter_cons]
    simp only [if_true]
    by_cases hdd : deg d = 1
    · rw [if_pos (by omega : deg d - 1 = 0), if_pos (by simpa using hdd)]
      simp [List.append_assoc]
    · rw [if_neg (by omega : ¬ deg d - 1 = 0), if_neg (by simpa using hdd)]

theorem processDeps_queue_sub (cs : List String) :
    ∀ (deg : String → Int) (q : List String) (x : String),
      x ∈ (processDeps cs deg q).2 → x ∈ q ∨ x ∈ cs := by
  induction cs with
  | nil =>
    intro deg q x hx
    exact Or.inl hx
  | cons d ds ih =>
    intro deg q x hx
    simp only [processDeps] at hx
    rcases ih _ _ x hx with h1 | h1
    · split at h1
      · split at h1
        · rcases List.mem_append.mp h1 with h2 | h2
          · exact Or.inl h2
          · exact Or.inr (by rw [List.mem_singleton.mp h2]; exact List.mem_cons_self _ _)
        · exact Or.inl h1
      · split at h1
        · rcases List.mem_append.mp h1 with h2 | h2
          · exact Or.inl h2
          · exact Or.inr (by rw [List.mem_singleton.mp h2]; exact List.mem_cons_self _ _)
        · exact Or.inl h1
    · exact Or.inr (List.mem_cons_of_mem _ h1)

/-! ## Kahn's algorithm: in-degree accounting -/

theorem degSpec_nonneg (g : AdjMap) (res : List String) (n : String) :
    0 ≤ degSpec g res n :=
  Int.natCast_nonneg _

theorem degSpec_pos_of_entry (g : AdjMap) (res : List String) (n : String)
    (e : String × List String) (he : e ∈ g) (hn : n ∈ e.2) (hres : e.1 ∉ res) :
    1 ≤ degSpec g res n := by
  unfold degSpec
  have h1 : 0 < g.countP (fun e => decide (n ∈ e.2 ∧ e.1 ∉ res)) :=
    List.countP_pos_iff.mpr ⟨e, he, by simp [hn, hres]⟩
  omega

theorem degSpec_zero_no_entry (g : AdjMap) (res : List String) (n : String)
    (h : degSpec g res n = 0) (e : String × List String) (he : e ∈ g)
    (hn : n ∈ e.2) : e.1 ∈ res := by
  unfold degSpec at h
  have h2 : g.countP (fun e => decide (n ∈ e.2 ∧ e.1 ∉ res)) = 0 := by omega
  have h3 := List.countP_eq_zero.mp h2 e he
  by_contra hres
  exact h3 (by simp [hn, hres])

theorem degSpec_ne_zero_entry (g : AdjMap) (res : List String) (n : String)
    (h : degSpec g res n ≠ 0) : ∃ e ∈ g, n ∈ e.2 ∧ e.1 ∉ res := by
  unfold degSpec at h
  have h2 : 0 < g.countP (fun e => decide (n ∈ e.2 ∧ e.1 ∉ res)) := by omega
  obtain ⟨e, he, hp⟩ := List.countP_pos_iff.mp h2
  exact ⟨e, he, by simpa using hp⟩

theorem countP_keys_out (g : AdjMap) (node : String) (hnode : node ∉ keysOf g)
    (res : List String) (n : String) :
    g.countP (fun e => decide (n ∈ e.2 ∧ e.1 ∉ res ++ [node]))
      = g.countP (fun e => decide (n ∈ e.2 ∧ e.1 ∉ res)) := by
  apply List.countP_congr
  intro e he
  have hne : e.1 ≠ node := fun hh => hnode (hh ▸ List.mem_map.mpr ⟨e, he, rfl⟩)
  simp [List.mem_append, hne]

theorem degSpec_emit (g : AdjMap) (node : String) :
    ∀ (res : List String) (n : String), (keysOf g).Nodup → node ∈ keysOf g →
      node ∉ res →
      degSpec g res n
        = degSpec g (res ++ [node]) n + (if n ∈ lookupSet g node then 1 else 0) := by
  induction g with
  | nil => intro res n _ h _; cases h
  | cons e rest ih =>
    intro res n hnd hkey hres
    have hnd2 : e.1 ∉ keysOf rest ∧ (keysOf rest).Nodup := by
      unfold keysOf at hnd
      rw [List.map_cons] at hnd
      exact List.nodup_cons.mp hnd
    unfold degSpec
    rw [List.countP_cons, List.countP_cons]
    by_cases hek : e.1 = node
    · have hnodeK : node ∉ keysOf rest := hek ▸ hnd2.1
      have hcount := countP_keys_out rest node hnodeK res n
      have hlk : lookupSet (e :: rest) node = e.2 := by
        unfold lookupSet alookup
        rw [if_pos hek]
        rfl
      rw [hlk]
      have hppos : (decide (n ∈ e.2 ∧ e.1 ∉ res ++ [node]) : Bool) = false := by
        simp [hek, List.mem_append]
      have hpold : (decide (n ∈ e.2 ∧ e.1 ∉ res) : Bool) = decide (n ∈ e.2) := by
        rw [hek]
        simp [hres]
      rw [hppos, hpold, hcount]
      by_cases hn2 : n ∈ e.2
      · simp [hn2]
      · simp [hn2]
    · have hkey2 : node ∈ keysOf rest := by
        unfold keysOf at hkey
        rw [List.map_cons] at hkey
        rcases List.mem_cons.mp hkey with h1 | h1
        · exact absurd h1.symm hek
        · exact h1
      have hlk : lookupSet (e :: rest) node = lookupSet rest node := by
        unfold lookupSet
        simp only [alookup]
        rw [if_neg hek]
      have hpeq : (decide (n ∈ e.2 ∧ e.1 ∉ res ++ [node]) : Bool)
          = decide (n ∈ e.2 ∧ e.1 ∉ res) := by
        apply decide_eq_decide.mpr
        constructor
        · rintro ⟨h1, h2⟩
          exact ⟨h1, fun hh => h2 (List.mem_append_left _ hh)⟩
        · rintro ⟨h1, h2⟩
          refine ⟨h1, fun hh => ?_⟩
          rcases List.mem_append.mp hh with h3 | h3
          · exact h2 h3
          · exact hek (List.mem_singleton.mp h3)
      rw [hlk, hpeq]
      have ihr := ih res n hnd2.2 hkey2 hres
      unfold degSpec at ihr
      push_cast at ihr ⊢
      omega

/-! ## Kahn's algorithm: the loop invariant -/

theorem kahnInv_init (g : AdjMap) (hwf : WFg g) :
    KahnInv g (initInDegree g)
      ((keysOf g).filter (fun n => decide (initInDegree g n = 0))) [] := by
  have hdeg : ∀ n, initInDegree g n = degSpec g [] n := by
    intro n
    unfold initInDegree degSpec
    congr 1
    apply List.countP_congr
    intro e he
    simp
  refine ⟨?_, ?_, hdeg, ?_, ?_, ?_, ?_⟩
  · simpa using hwf.1.filter _
  · intro n hn
    simp only [List.nil_append] at hn
    exact List.mem_of_mem_filter hn
  · intro n hn
    have := (List.mem_filter.mp hn).2
    simpa using this
  · intro n hn
    cases hn
  · intro n hnk hnr hnq
    intro h0
    exact hnq (List.mem_filter.mpr ⟨hnk, by simpa using h0⟩)
  · intro a b hba hbr
    cases hbr

theorem kahnInv_step (g : AdjMap) (hwf : WFg g) (hcl : Closedg g)
    (deg : String → Int) (node : String) (rest res : List String)
    (inv : KahnInv g deg (node :: rest) res) :
    KahnInv g (processDeps (lookupSet g node) deg rest).1
      (processDeps (lookupSet g node) deg rest).2 (res ++ [node]) := by
  obtain ⟨hnodup, hsub, hdeg, hqz, hrz, hcomp, hsort⟩ := inv
  have hnodeK : node ∈ keysOf g :=
    hsub node (List.mem_append_right _ (List.mem_cons_self _ _))
  have hnodeE : (node, lookupSet g node) ∈ g := mem_keys_entry g node hnodeK hwf.1
  have hcsnd : (lookupSet g node).Nodup := hwf.2 _ hnodeE
  have hcssub : ∀ x ∈ lookupSet g node, x ∈ keysOf g := fun x hx => hcl _ hnodeE x hx
  have hnres : node ∉ res := by
    rw [List.nodup_append] at hnodup
    exact fun hmem => hnodup.2.2 hmem (List.mem_cons_self _ _)
  have hdnode : deg node = 0 := hqz node (List.mem_cons_self _ _)
  have hcs_pos : ∀ x ∈ lookupSet g node, 1 ≤ deg x := by
    intro x hx
    rw [hdeg x]
    exact degSpec_pos_of_entry g res x (node, lookupSet g node) hnodeE hx hnres
  have hdeg2 : ∀ n, (processDeps (lookupSet g node) deg rest).1 n
      = deg n - (if n ∈ lookupSet g node then 1 else 0) :=
    processDeps_deg _ deg rest hcsnd
  have hq2 : (processDeps (lookupSet g node) deg rest).2
      = rest ++ (lookupSet g node).filter (fun d => decide (deg d = 1)) :=
    processDeps_queue _ deg rest hcsnd
  have henq_mem : ∀ x ∈ (lookupSet g node).filter (fun d => decide (deg d = 1)),
      x ∈ lookupSet g node ∧ deg x = 1 := by
    intro x hx
    have := List.mem_filter.mp hx
    exact ⟨this.1, by simpa using this.2⟩
  have henq_not : ∀ x ∈ (lookupSet g node).filter (fun d => decide (deg d = 1)),
      x ∉ res ∧ x ≠ node ∧ x ∉ rest := by
    intro x hx
    obtain ⟨hxcs, hx1⟩ := henq_mem x hx
    refine ⟨?_, ?_, ?_⟩
    · intro hxr
      have := hrz x hxr
      omega
    · intro hxn
      rw [hxn] at hx1
      omega
    · intro hxr
      have := hqz x (List.mem_cons_of_mem _ hxr)
      omega
  have hdeg3 : ∀ n, (processDeps (lookupSet g node) deg rest).1 n
      = degSpec g (res ++ [node]) n := by
    intro n
    rw [hdeg2 n, hdeg n, degSpec_emit g node res n hwf.1 hnodeK hnres]
    omega
  refine ⟨?_, ?_, hdeg3, ?_, ?_, ?_, ?_⟩
  · rw [hq2]
    have hshape : (res ++ [node]) ++
        (rest ++ (lookupSet g node).filter (fun d => decide (deg d = 1)))
        = (res ++ node :: rest) ++
          (lookupSet g node).filter (fun d => decide (deg d = 1)) := by
      simp [List.append_assoc]
    rw [hshape]
    apply List.Nodup.append hnodup (hcsnd.filter _)
    intro x hx1 hx2
    obtain ⟨hr1, hr2, hr3⟩ := henq_not x hx2
    rcases List.mem_append.mp hx1 with h1 | h1
    · exact hr1 h1
    · rcases List.mem_cons.mp h1 with h2 | h2
      · exact hr2 h2
      · exact hr3 h2
  · intro n hn
    rw [hq2] at hn
    rcases List.mem_append.mp hn with h1 | h1
    · rcases List.mem_append.mp h1 with h2 | h2
      · exact hsub n (List.mem_append_left _ h2)
      · rw [List.mem_singleton.mp h2]
        exact hnodeK
    · rcases List.mem_append.mp h1 with h2 | h2
      · exact hsub n (List.mem_append_right _ (List.mem_cons_of_mem _ h2))
      · exact hcssub n (henq_mem n h2).1
  · intro n hn
    rw [hq2] at hn
    rcases List.mem_append.mp hn with h1 | h1
    · have hn0 : deg n = 0 := hqz n (List.mem_cons_of_mem _ h1)
      have hncs : n ∉ lookupSet g node := by
        intro hc
        have := hcs_pos n hc
        omega
      rw [hdeg2 n, if_neg hncs]
      omega
    · obtain ⟨hncs, hn1⟩ := henq_mem n h1
      rw [hdeg2 n, if_pos hncs]
      omega
  · intro n hn
    rcases List.mem_append.mp hn with h1 | h1
    · have hn0 : deg n = 0 := hrz n h1
      have hncs : n ∉ lookupSet g node := by
        intro hc
        have := hcs_pos n hc
        omega
      rw [hdeg2 n, if_neg hncs]
      omega
    · rw [List.mem_singleton.mp h1]
      have hncs : node ∉ lookupSet g node := by
        intro hc
        have := hcs_pos node hc
        omega
      rw [hdeg2 node, if_neg hncs]
      omega
  · intro n hnk hnres2 hnq2
    rw [hq2] at hnq2
    have hn_res : n ∉ res := fun h => hnres2 (List.mem_append_left _ h)
    have hn_node : n ≠ node := fun h =>
      hnres2 (List.mem_append_right _ (by rw [h]; exact List.mem_singleton.mpr rfl))
    have hn_rest : n ∉ rest := fun h => hnq2 (List.mem_append_left _ h)
    have hn_enq : n ∉ (lookupSet g node).filter (fun d => decide (deg d = 1)) :=
      fun h => hnq2 (List.mem_append_right _ h)
    have hold : deg n ≠ 0 := by
      apply hcomp n hnk hn_res
      intro h
      rcases List.mem_cons.mp h with h1 | h1
      · exact hn_node h1
      · exact hn_rest h1
    have hnn : 0 ≤ deg n := by
      rw [hdeg n]
      exact degSpec_nonneg g res n
    by_cases hncs : n ∈ lookupSet g node
    · have h1 : ¬ deg n = 1 := fun h =>
        hn_enq (List.mem_filter.mpr ⟨hncs, by simpa using h⟩)
      rw [hdeg2 n, if_pos hncs]
      omega
    · rw [hdeg2 n, if_neg hncs]
      omega
  · intro a b hba hbres
    rcases List.mem_append.mp hbres with hb1 | hb1
    · obtain ⟨ha, hidx⟩ := hsort a b hba hb1
      refine ⟨List.mem_append_left _ ha, ?_⟩
      rw [idxOf_append_left res [node] a ha, idxOf_append_left res [node] b hb1]
      exact hidx
    · have hbn : b = node := List.mem_singleton.mp hb1
      subst hbn
      obtain ⟨s, hs⟩ : ∃ s, alookup g a = some s := by
        cases hla : alookup g a with
        | none =>
          rw [show lookupSet g a = [] from by unfold lookupSet; rw [hla]; rfl] at hba
          cases hba
        | some s => exact ⟨s, rfl⟩
      have hentry : (a, s) ∈ g := mem_of_alookup_some g a hs
      have hbs : b ∈ s := by
        unfold lookupSet at hba
        rw [hs] at hba
        exact hba
      have hares : a ∈ res := by
        have hz : degSpec g res b = 0 := by
          rw [← hdeg b]
          exact hdnode
        exact degSpec_zero_no_entry g res b hz (a, s) hentry hbs
      refine ⟨List.mem_append_left _ hares, ?_⟩
      rw [idxOf_append_left res [b] a hares, idxOf_append_fresh res b hnres]
      exact idxOf_lt_length res a hares

theorem kahnLoop_spec (g : AdjMap) (hwf : WFg g) (hcl : Closedg g) :
    ∀ (fuel : Nat) (deg : String → Int) (queue res : List String),
      KahnInv g deg queue res →
      g.length + 1 ≤ fuel + res.length →
      (kahnLoop g fuel deg queue res).Nodup ∧
      (∀ n ∈ kahnLoop g fuel deg queue res, n ∈ keysOf g) ∧
      (∀ a b, b ∈ lookupSet g a → b ∈ kahnLoop g fuel deg queue res →
        a ∈ kahnLoop g fuel deg queue res ∧
        idxOf (kahnLoop g fuel deg queue res) a
          < idxOf (kahnLoop g fuel deg queue res) b) ∧
      (∀ n ∈ keysOf g, n ∉ kahnLoop g fuel deg queue res →
        ∃ m2, m2 ∈ keysOf g ∧ m2 ∉ kahnLoop g fuel deg queue res ∧
          n ∈ lookupSet g m2) := by
  intro fuel
  induction fuel with
  | zero =>
    intro deg queue res inv hbound
    exfalso
    have h1 : res.Nodup := (List.nodup_append.mp inv.nodup).1
    have h2 : ∀ x ∈ res, x ∈ keysOf g :=
      fun x hx => inv.subKeys x (List.mem_append_left _ hx)
    have h3 : res.length ≤ (keysOf g).length :=
      nodup_subset_length_le res (keysOf g) h1 h2
    have h4 : (keysOf g).length = g.length := List.length_map _ _
    omega
  | succ fuel ih =>
    intro deg queue res inv hbound
    cases queue with
    | nil =>
      simp only [kahnLoop]
      refine ⟨(List.nodup_append.mp inv.nodup).1, ?_, ?_, ?_⟩
      · exact fun n hn => inv.subKeys n (List.mem_append_left _ hn)
      · exact fun a b hba hb => inv.sorted a b hba hb
      · intro n hnk hnres
        have hdegn : deg n ≠ 0 := inv.complete n hnk hnres (List.not_mem_nil n)
        have hne := degSpec_ne_zero_entry g res n (by rw [← inv.degEq n]; exact hdegn)
        obtain ⟨e, he, hn2, hres2⟩ := hne
        refine ⟨e.1, List.mem_map.mpr ⟨e, he, rfl⟩, hres2, ?_⟩
        rw [lookupSet_of_mem_of_nodup g e he hwf.1]
        exact hn2
    | cons node rest =>
      simp only [kahnLoop]
      have inv2 := kahnInv_step g hwf hcl deg node rest res inv
      have hbound2 : g.length + 1 ≤ fuel + (res ++ [node]).length := by
        rw [List.length_append]
        simp only [List.length_singleton]
        omega
      exact ih _ _ _ inv2 hbound2

/-! ## Acyclicity -/

theorem chain_of_iter (g : AdjMap) (FS : ℕ → String)
    (hF : ∀ k, hasEdge g (FS (k + 1)) (FS k)) :
    ∀ (d i : ℕ), ∃ t, List.Chain (hasEdge g) (FS (i + d + 1)) (t ++ [FS i]) := by
  intro d
  induction d with
  | zero =>
    intro i
    exact ⟨[], List.Chain.cons (hF i) List.Chain.nil⟩
  | succ d ihd =>
    intro i
    obtain ⟨t, ht⟩ := ihd i
    refine ⟨FS (i + d + 1) :: t, ?_⟩
    have hstep := List.Chain.cons (hF (i + d + 1)) ht
    have heq : i + (d + 1) + 1 = i + d + 1 + 1 := by omega
    rw [heq]
    exact hstep

theorem no_all_pred_subset (g : AdjMap) (hacyc : Acyclic g) (S : List String)
    (hne : S ≠ []) (hpred : ∀ n ∈ S, ∃ m2 ∈ S, hasEdge g m2 n) : False := by
  have hpred2 : ∀ x : {y // y ∈ S}, ∃ z : {y // y ∈ S}, hasEdge g z.1 x.1 := by
    rintro ⟨x, hx⟩
    obtain ⟨m2, hm2, he⟩ := hpred x hx
    exact ⟨⟨m2, hm2⟩, he⟩
  choose f hf using hpred2
  obtain ⟨s0, hs0⟩ : ∃ x, x ∈ S := by
    cases S with
    | nil => exact absurd rfl hne
    | cons a l => exact ⟨a, List.mem_cons_self a l⟩
  let F : ℕ → {y // y ∈ S} := fun k => f^[k] ⟨s0, hs0⟩
  have hFe : ∀ k, hasEdge g (F (k + 1)).1 (F k).1 := by
    intro k
    have h1 : F (k + 1) = f (F k) := Function.iterate_succ_apply' f k ⟨s0, hs0⟩
    rw [h1]
    exact hf (F k)
  let G : Fin (S.length + 1) → String := fun i => (F i.1).1
  have hmap : ∀ i : Fin (S.length + 1), G i ∈ S.toFinset :=
    fun i => List.mem_toFinset.mpr (F i.1).2
  have hcard : S.toFinset.card < (Finset.univ : Finset (Fin (S.length + 1))).card := by
    have h1 : S.toFinset.card ≤ S.length := List.toFinset_card_le S
    rw [Finset.card_univ, Fintype.card_fin]
    omega
  obtain ⟨i, -, j, -, hij, hGij⟩ :=
    Finset.exists_ne_map_eq_of_card_lt_of_maps_to hcard (fun i _ => hmap i)
  have hkey : ∃ a b : ℕ, a < b ∧ (F a).1 = (F b).1 := by
    rcases lt_or_gt_of_ne hij with hlt | hlt
    · exact ⟨i.1, j.1, hlt, hGij⟩
    · exact ⟨j.1, i.1, hlt, hGij.symm⟩
  obtain ⟨a, b, hab, hFab⟩ := hkey
  obtain ⟨t, ht⟩ := chain_of_iter g (fun k => (F k).1) hFe (b - a - 1) a
  have hba : a + (b - a - 1) + 1 = b := by omega
  rw [hba] at ht
  rw [← hFab] at ht
  exact hacyc (F a).1 t ht

theorem acyclic_of_rank (g : AdjMap) (rank : String → Nat)
    (h : ∀ a b, hasEdge g a b → rank a < rank b) : Acyclic g := by
  intro a t hchain
  have key : ∀ (l : List String) (x : String), List.Chain (hasEdge g) x l →
      ∀ y ∈ l, rank x < rank y := by
    intro l
    induction l with
    | nil =>
      intro x _ y hy
      cases hy
    | cons z l2 ihl =>
      intro x hch y hy
      cases hch with
      | cons hxz hrest =>
        rcases List.mem_cons.mp hy with h1 | h1
        · rw [h1]
          exact h x z hxz
        · exact lt_trans (h x z hxz) (ihl z hrest y h1)
  have := key (t ++ [a]) a hchain a (List.mem_append_right _ (List.mem_singleton.mpr rfl))
  exact absurd this (lt_irrefl _)

/-! ## Topological sort (C5) -/

/-- C5: on every well-formed, closed, acyclic adjacency map,
`topological_sort` emits each node of the map exactly once (the result is a
permutation of the key list) and, for every recorded edge
dependency → consumer, the dependency appears strictly before the consumer.
Well-formedness (distinct keys, duplicate-free sets) and closedness (edge
targets are keys) hold for every state the Python class can reach. -/
theorem topological_sort_correct (g : AdjMap) (hwf : WFg g) (hcl : Closedg g)
    (hacyc : Acyclic g) :
    (topological_sort g).Perm (keysOf g) ∧
    ∀ a b, hasEdge g a b →
      idxOf (topological_sort g) a < idxOf (topological_sort g) b := by
  obtain ⟨hnd, hsub, hsorted, hpred⟩ :=
    kahnLoop_spec g hwf hcl (sortFuel g) (initInDegree g)
      ((keysOf g).filter (fun n => decide (initInDegree g n = 0))) []
      (kahnInv_init g hwf) (by unfold sortFuel; omega)
  have hout : topological_sort g
      = kahnLoop g (sortFuel g) (initInDegree g)
        ((keysOf g).filter (fun n => decide (initInDegree g n = 0))) [] := rfl
  rw [hout]
  have hcomplete : ∀ n ∈ keysOf g,
      n ∈ kahnLoop g (sortFuel g) (initInDegree g)
        ((keysOf g).filter (fun n => decide (initInDegree g n = 0))) [] := by
    by_contra hmiss
    push_neg at hmiss
    obtain ⟨n0, hn0k, hn0out⟩ := hmiss
    set out := kahnLoop g (sortFuel g) (initInDegree g)
      ((keysOf g).filter (fun n => decide (initInDegree g n = 0))) [] with hdefout
    set S := (keysOf g).filter (fun n => decide (n ∉ out)) with hdefS
    have hSne : S ≠ [] := by
      have : n0 ∈ S := List.mem_filter.mpr ⟨hn0k, by simpa using hn0out⟩
      intro hS
      rw [hS] at this
      cases this
    apply no_all_pred_subset g hacyc S hSne
    intro n hn
    have hn1 := List.mem_filter.mp hn
    have hn2 : n ∉ out := by simpa using hn1.2
    obtain ⟨m2, hm2k, hm2out, hm2e⟩ := hpred n hn1.1 hn2
    exact ⟨m2, List.mem_filter.mpr ⟨hm2k, by simpa using hm2out⟩, hm2e⟩
  constructor
  · rw [List.perm_ext_iff_of_nodup hnd hwf.1]
    intro x
    exact ⟨fun hx => hsub x hx, fun hx => hcomplete x hx⟩
  · intro a b hab
    have haK : a ∈ keysOf g := by
      obtain ⟨s, hs⟩ : ∃ s, alookup g a = some s := by
        cases hla : alookup g a with
        | none =>
          unfold hasEdge at hab
          rw [show lookupSet g a = [] from by unfold lookupSet; rw [hla]; rfl] at hab
          cases hab
        | some s => exact ⟨s, rfl⟩
      exact mem_keys_of_alookup_some g a hs
    have hbK : b ∈ keysOf g := by
      have hentry := mem_keys_entry g a haK hwf.1
      exact hcl _ hentry b hab
    exact (hsorted a b hab (hcomplete b hbK)).2

/-- Witness for `topological_sort_correct` on the concrete acyclic graph
`a → b`. -/
theorem topological_sort_correct_witness :
    WFg exampleDag ∧ Closedg exampleDag ∧ Acyclic exampleDag ∧
    ((topological_sort exampleDag).Perm (keysOf exampleDag) ∧
     ∀ a b, hasEdge exampleDag a b →
       idxOf (topological_sort exampleDag) a
         < idxOf (topological_sort exampleDag) b) := by
  have hacyc : Acyclic exampleDag := by
    apply acyclic_of_rank exampleDag (fun s => if s = "b" then 1 else 0)
    intro a b hab
    obtain ⟨e, he, he1, hb⟩ := exists_entry_of_mem_lookupSet exampleDag a b hab
    have he2 : e = ("a", ["b"]) ∨ e = ("b", ([] : List String)) := by
      simpa [exampleDag] using he
    rcases he2 with he2 | he2
    · subst he2
      cases he1
      rcases List.mem_singleton.mp hb with rfl
      decide
    · subst he2
      cases hb
  have hwf : WFg exampleDag := by
    unfold WFg
    decide
  have hcl : Closedg exampleDag := by
    unfold Closedg
    decide
  exact ⟨hwf, hcl, hacyc, topological_sort_correct exampleDag hwf hcl hacyc⟩

/-! ## Cycles (C8) -/

/-- C8 counterexample: `gChord` contains the cycle `A→B→C→A` (plus the chord
`C→B`), yet with its key order and set order the DFS of `detect_cycles`
records only the two-cycle `C→B→C` — no reported cycle contains all of
`A`, `B` and `C`. -/
theorem detect_cycles_chord_counterexample :
    hasEdge gChord "A" "B" ∧ hasEdge gChord "B" "C" ∧ hasEdge gChord "C" "A" ∧
    ∀ cyc ∈ detect_cycles gChord, ¬ ("A" ∈ cyc ∧ "B" ∈ cyc ∧ "C" ∈ cyc) := by
  refine ⟨?_, ?_, ?_, ?_⟩
  · unfold hasEdge
    decide
  · unfold hasEdge
    decide
  · unfold hasEdge
    decide
  · decide

/-- C8 (amended): on every well-formed closed graph containing a cycle
`a→b→c→a`, `topological_sort` returns (totally, nothing is raised) with an
emitted prefix strictly shorter than the node count; and on the graph whose
edges are exactly the three-cycle `A→B→C→A`, `detect_cycles` returns a
witness cycle containing all of `A`, `B`, `C`.  The detection half of the
original claim is restricted to the pure cycle graph: with extra edges the
DFS can report only a sub-cycle (`detect_cycles_chord_counterexample`). -/
theorem cycle_partial_sort_and_detection (g : AdjMap) (hwf : WFg g)
    (hcl : Closedg g) (a b c : String) (hab : hasEdge g a b)
    (hbc : hasEdge g b c) (hca : hasEdge g c a) :
    (topological_sort g).length < (keysOf g).length ∧
    ∃ cyc ∈ detect_cycles cyc3, "A" ∈ cyc ∧ "B" ∈ cyc ∧ "C" ∈ cyc := by
  constructor
  · obtain ⟨hnd, hsub, hsorted, -⟩ :=
      kahnLoop_spec g hwf hcl (sortFuel g) (initInDegree g)
        ((keysOf g).filter (fun n => decide (initInDegree g n = 0))) []
        (kahnInv_init g hwf) (by unfold sortFuel; omega)
    have hout : topological_sort g
        = kahnLoop g (sortFuel g) (initInDegree g)
          ((keysOf g).filter (fun n => decide (initInDegree g n = 0))) [] := rfl
    rw [hout]
    set out := kahnLoop g (sortFuel g) (initInDegree g)
      ((keysOf g).filter (fun n => decide (initInDegree g n = 0))) [] with hdefout
    have hcK : c ∈ keysOf g := by
      obtain ⟨s, hs⟩ : ∃ s, alookup g c = some s := by
        cases hlc : alookup g c with
        | none =>
          unfold hasEdge at hca
          rw [show lookupSet g c = [] from by unfold lookupSet; rw [hlc]; rfl] at hca
          cases hca
        | some s => exact ⟨s, rfl⟩
      exact mem_keys_of_alookup_some g c hs
    have haK : a ∈ keysOf g := hcl _ (mem_keys_entry g c hcK hwf.1) a hca
    have hanot : a ∉ out := by
      intro haout
      obtain ⟨hcin, hidx_ca⟩ := hsorted c a hca haout
      obtain ⟨hbin, hidx_bc⟩ := hsorted b c hbc hcin
      obtain ⟨-, hidx_ab⟩ := hsorted a b hab hbin
      omega
    exact nodup_ssubset_length_lt out (keysOf g) hnd hsub a haK hanot
  · decide

/-- Witness for `cycle_partial_sort_and_detection` on the pure three-cycle
graph. -/
theorem cycle_partial_sort_and_detection_witness :
    WFg cyc3 ∧ Closedg cyc3 ∧
    hasEdge cyc3 "A" "B" ∧ hasEdge cyc3 "B" "C" ∧ hasEdge cyc3 "C" "A" ∧
    ((topological_sort cyc3).length < (keysOf cyc3).length ∧
     ∃ cyc ∈ detect_cycles cyc3, "A" ∈ cyc ∧ "B" ∈ cyc ∧ "C" ∈ cyc) := by
  have hwf : WFg cyc3 := by
    unfold WFg
    decide
  have hcl : Closedg cyc3 := by
    unfold Closedg
    decide
  have h1 : hasEdge cyc3 "A" "B" := by
    unfold hasEdge
    decide
  have h2 : hasEdge cyc3 "B" "C" := by
    unfold hasEdge
    decide
  have h3 : hasEdge cyc3 "C" "A" := by
    unfold hasEdge
    decide
  exact ⟨hwf, hcl, h1, h2, h3,
    cycle_partial_sort_and_detection cyc3 hwf hcl "A" "B" "C" h1 h2 h3⟩

/-! ## Restoration order (C1) -/

theorem lookupSet_eq_of_alookup (m : AdjMap) (k : String) (v : List String)
    (h : alookup m k = some v) : lookupSet m k = v := by
  unfold lookupSet
  rw [h]
  rfl

theorem kahnLoop_reach (g : AdjMap) :
    ∀ (fuel : Nat) (deg : String → Int) (queue res : List String),
      (∀ x ∈ res, inReachOf g x) → (∀ x ∈ queue, inReachOf g x) →
      ∀ x ∈ kahnLoop g fuel deg queue res, inReachOf g x := by
  intro fuel
  induction fuel with
  | zero =>
    intro deg queue res hres hq x hx
    exact hres x hx
  | succ fuel ih =>
    intro deg queue res hres hq x hx
    cases queue with
    | nil =>
      simp only [kahnLoop] at hx
      exact hres x hx
    | cons node rest =>
      simp only [kahnLoop] at hx
      refine ih _ _ _ ?_ ?_ x hx
      · intro y hy
        rcases List.mem_append.mp hy with h1 | h1
        · exact hres y h1
        · rw [List.mem_singleton.mp h1]
          exact hq node (List.mem_cons_self _ _)
      · intro y hy
        rcases processDeps_queue_sub _ _ _ _ hy with h1 | h1
        · exact hq y (List.mem_cons_of_mem _ h1)
        · by_cases hk : node ∈ keysOf g
          · exact Or.inr ⟨node, hk, h1⟩
          · rw [show lookupSet g node = [] from by
              unfold lookupSet
              rw [alookup_none_of_not_mem_keys g node hk]
              rfl] at h1
            cases h1

theorem foldl_asetKV_entries (g0 : AdjMap) (S : String → Prop) (L : List String)
    (hL : ∀ d ∈ L, S d) :
    ∀ m0 : AdjMap, (∀ e ∈ m0, S e.1 ∧ e.2 = lookupSet g0 e.1) →
      ∀ e ∈ L.foldl (fun m d => asetKV m d (lookupSet g0 d)) m0,
        S e.1 ∧ e.2 = lookupSet g0 e.1 := by
  induction L with
  | nil => exact fun m0 h => h
  | cons d rest ih =>
    intro m0 h0 e he
    simp only [List.foldl_cons] at he
    refine ih (fun x hx => hL x (List.mem_cons_of_mem _ hx)) _ ?_ e he
    intro e2 he2
    rcases mem_asetKV_cases _ _ _ _ he2 with h1 | h1
    · rw [h1]
      exact ⟨hL d (List.mem_cons_self _ _), rfl⟩
    · exact h0 e2 h1

/-- C1 (amended): every path emitted by `getRestorationOrder(s)` is `s`
itself, a member of the dependency closure `getAllDependencies(s)`, or a
direct forward-consumer of one of those.  The original claim's "no path
outside the closure is ever emitted" fails because the subgraph keeps each
closure node's full consumer set unfiltered
(`restoration_order_escapes_closure`). -/
theorem restoration_order_reach (st : DepGraph) (s : String) :
    ∀ p ∈ get_restoration_order st s,
      p = s ∨ p ∈ get_all_dependencies st s ∨
      ∃ d, (d = s ∨ d ∈ get_all_dependencies st s) ∧ p ∈ lookupSet st.graph d := by
  intro p hp
  unfold get_restoration_order at hp
  cases hstart : alookup st.graph s with
  | none =>
    rw [hstart] at hp
    exact Or.inl (List.mem_singleton.mp hp)
  | some s0 =>
    rw [hstart] at hp
    have hentries : ∀ e ∈ asetKV
        ((get_all_dependencies st s).foldl
          (fun m d => asetKV m d (lookupSet st.graph d)) [])
        s (lookupSet st.graph s),
        (e.1 ∈ get_all_dependencies st s ∨ e.1 = s) ∧
          e.2 = lookupSet st.graph e.1 := by
      intro e he
      rcases mem_asetKV_cases _ _ _ _ he with h1 | h1
      · rw [h1]
        exact ⟨Or.inr rfl, rfl⟩
      · have := foldl_asetKV_entries st.graph
          (fun x => x ∈ get_all_dependencies st s ∨ x = s)
          (get_all_dependencies st s) (fun d hd => Or.inl hd) []
          (fun e2 he2 => absurd he2 (List.not_mem_nil e2)) e h1
        exact this
    have hreach : inReachOf (asetKV
        ((get_all_dependencies st s).foldl
          (fun m d => asetKV m d (lookupSet st.graph d)) [])
        s (lookupSet st.graph s)) p := by
      apply kahnLoop_reach _ _ _ _ _ (fun x hx => absurd hx (List.not_mem_nil x))
        (fun x hx => Or.inl (List.mem_of_mem_filter hx)) p hp
    rcases hreach with h1 | ⟨d, hd, hpd⟩
    · obtain ⟨v, hv⟩ := alookup_isSome_of_mem_keys _ p h1
      obtain ⟨hS, -⟩ := hentries _ (mem_of_alookup_some _ p hv)
      rcases hS with h2 | h2
      · exact Or.inr (Or.inl h2)
      · exact Or.inl h2
    · obtain ⟨v, hv⟩ := alookup_isSome_of_mem_keys _ d hd
      have hentry := mem_of_alookup_some _ d hv
      obtain ⟨hS, hval⟩ := hentries _ hentry
      have hpd2 : p ∈ v := by
        rw [lookupSet_eq_of_alookup _ d v hv] at hpd
        exact hpd
      have hval2 : v = lookupSet st.graph d := hval
      rw [hval2] at hpd2
      refine Or.inr (Or.inr ⟨d, ?_, hpd2⟩)
      rcases hS with h2 | h2
      · exact Or.inr h2
      · exact Or.inl h2

/-- C1 counterexample: in `gC1`, the closure of `/S.lua` is `{/D.lua}`, yet
`getRestorationOrder("/S.lua")` also emits `/X.lua`, a path outside
closure ∪ {start}. -/
theorem restoration_order_escapes_closure :
    "/X.lua" ∈ get_restoration_order gC1 "/S.lua" ∧
    "/X.lua" ≠ "/S.lua" ∧
    "/X.lua" ∉ get_all_dependencies gC1 "/S.lua" := by
  decide

/-- Witness for `restoration_order_reach`: the escaped path `/X.lua` is a
direct consumer of the closure member `/D.lua`. -/
theorem restoration_order_reach_witness :
    "/X.lua" ∈ get_restoration_order gC1 "/S.lua" ∧
    ("/X.lua" = "/S.lua" ∨ "/X.lua" ∈ get_all_dependencies gC1 "/S.lua" ∨
     ∃ d, (d = "/S.lua" ∨ d ∈ get_all_dependencies gC1 "/S.lua") ∧
       "/X.lua" ∈ lookupSet gC1.graph d) :=
  ⟨by decide, restoration_order_reach gC1 "/S.lua" "/X.lua" (by decide)⟩

end LuaDec
